import Mathlib

/-!
Verification of the kerning-group conversion core of glyphsLib
(src/Lib/glyphsLib/builder/groups.py).

The design font ("Glyphs" side) carries per-glyph kerning-group attributes
and an optional right-to-left kerning table; the build font ("UFO" side)
carries named ordered groups following the public.kern1./public.kern2.
convention.  The functions below are a shallow embedding of groups.py:
ordered Python dicts become insertion-ordered association lists, Python
sets become lists used only through membership, and raising code returns
Except.  Constants referenced from constants.py (which only defines data,
not behaviour) are modelled from the specification where noted.
-/

set_option maxHeartbeats 1000000

namespace GlyphsGroups

/-- Python str.startswith on code points. -/
def strStartsWith (s p : String) : Bool := p.data.isPrefixOf s.data

/-- Python s[n:] slicing on code points. -/
def strDrop (s : String) (n : Nat) : String := String.mk (s.data.drop n)

/-- The two per-glyph kerning attributes of a design-font glyph. -/
inductive KerningAttr
  | leftKerningGroup
  | rightKerningGroup
deriving DecidableEq

/-- A design-font glyph: a name and two optional kerning-group labels
(Python None is modelled as Option.none). -/
structure GSGlyph where
  name : String
  leftKerningGroup : Option String
  rightKerningGroup : Option String
deriving DecidableEq

/-- Python getattr on the two kerning-group attributes. -/
def GSGlyph.getAttr (g : GSGlyph) : KerningAttr → Option String
  | .leftKerningGroup => g.leftKerningGroup
  | .rightKerningGroup => g.rightKerningGroup

/-- Python setattr on the two kerning-group attributes. -/
def GSGlyph.setAttr (g : GSGlyph) : KerningAttr → Option String → GSGlyph
  | .leftKerningGroup, v => { g with leftKerningGroup := v }
  | .rightKerningGroup, v => { g with rightKerningGroup := v }

/-- A design-font class: a name plus an opaque code string. -/
structure GSClass where
  name : String
  code : String
deriving DecidableEq

/-- A design-font master: its id, and optionally the id of the master it
delegates its kerning context to (metricsSource). -/
structure GSFontMaster where
  id : String
  metricsSource : Option String
deriving DecidableEq

/-- Insertion-ordered association list standing for a Python dict from
group name to glyph-name list. -/
abbrev AL := List (String × List String)

/-- The design font, restricted to the data groups.py reads and writes.
The two userData entries stand for UFO_ORIGINAL_KERNING_GROUPS_KEY and
UFO_GROUPS_NOT_IN_FEATURE_KEY; a missing key is Option.none. -/
structure GSFont where
  glyphs : List GSGlyph
  masters : List GSFontMaster
  kerningRTL : List (String × List (String × List (String × Int)))
  classes : List GSClass
  userDataOrigGroups : Option AL
  userDataGroupsNotInFeature : Option (List String)
deriving DecidableEq

/-- A build-font (UFO) instance: its ordered group table plus the two
fields used for diagnostics. -/
structure UFOFont where
  groups : AL
  path : Option String
  styleName : String
deriving DecidableEq

/-- The builder object: the design font, the parallel build-font
instances (self dot sources), and the round-trip preservation flag. -/
structure Builder where
  font : GSFont
  sources : List UFOFont
  minimize_ufo_diffs : Bool
deriving DecidableEq

/-- Lookup in an insertion-ordered dict. -/
def alLookup {α : Type} (l : List (String × α)) (k : String) : Option α :=
  match l.find? (fun p => p.1 == k) with
  | some p => some p.2
  | none => none

/-- Python dict assignment d[k] = v: replaces the entry in place when the
key is present (dict keys are unique, so replacing the first occurrence
is replacement in place), else appends the new entry at the end. -/
def alSet {α : Type} : List (String × α) → String → α → List (String × α)
  | [], k, v => [(k, v)]
  | p :: rest, k, v => if p.1 = k then (k, v) :: rest else p :: alSet rest k v

/-- defaultdict(list) append: d[k].append(x). -/
def alAppend (l : AL) (k : String) (x : String) : AL :=
  alSet l k (((alLookup l k).getD []) ++ [x])

/-- groups.py _glyph_kerning_attr: map a UFO group side (1 or 2) to the
design-glyph attribute, flipping the side first for RTL kerning; any
other side fails the assertion (modelled as none). -/
def _glyph_kerning_attr (side : Nat) (is_rtl : Bool := false) : Option KerningAttr :=
  if side = 1 ∨ side = 2 then
    let side := if is_rtl then (if side = 1 then 2 else 1) else side
    some (if side = 1 then .rightKerningGroup else .leftKerningGroup)
  else none

/-- The attribute _glyph_kerning_attr yields on the two valid sides. -/
def kAttr (side : Nat) (is_rtl : Bool) : KerningAttr :=
  if (if is_rtl then side ≠ 1 else side = 1) then .rightKerningGroup else .leftKerningGroup

/-- Accumulator of _get_glyphs_with_rtl_kerning: directly referenced
glyph names, plus the group labels collected per attribute (leftGroups
holds rtl_groups[leftKerningGroup], filled from side-R keys; rightGroups
holds rtl_groups[rightKerningGroup], filled from side-L keys). -/
structure RTLAcc where
  rtl_glyphs : List String
  leftGroups : List String
  rightGroups : List String
deriving DecidableEq

/-- groups.py mark_as_rtl: a key with the expected marker records a group
label; a key with the marker but the wrong format fails the assertion;
a bare key records a single glyph. -/
def mark_as_rtl (acc : RTLAcc) (s : String) (side : String) : Except String RTLAcc :=
  if strStartsWith s ("@MMK_" ++ side ++ "_") then
    .ok (if side == "R" then { acc with leftGroups := acc.leftGroups ++ [strDrop s 7] }
         else { acc with rightGroups := acc.rightGroups ++ [strDrop s 7] })
  else if strStartsWith s "@MMK_" then
    .error ("unexpected key in kerningRTL: " ++ s)
  else .ok { acc with rtl_glyphs := acc.rtl_glyphs ++ [s] }

/-- Scan the right keys of one RTL subtable (side L). -/
def scanSub (acc : RTLAcc) : List (String × Int) → Except String RTLAcc
  | [] => .ok acc
  | (k2, _) :: rest => do
      let acc ← mark_as_rtl acc k2 "L"
      scanSub acc rest

/-- Scan one kerning context of the RTL table: left keys (side R) and
their subtables. -/
def scanTable (acc : RTLAcc) : List (String × List (String × Int)) → Except String RTLAcc
  | [] => .ok acc
  | (k1, sub) :: rest => do
      let acc ← mark_as_rtl acc k1 "R"
      let acc ← scanSub acc sub
      scanTable acc rest

/-- Scan all kerning contexts in use. -/
def scanIds (font : GSFont) (acc : RTLAcc) : List String → Except String RTLAcc
  | [] => .ok acc
  | i :: rest => do
      let acc ← scanTable acc ((alLookup font.kerningRTL i).getD [])
      scanIds font acc rest

/-- Keep-first deduplication, standing for the Python set of kerning ids
(set iteration order is unspecified; only membership matters). -/
def dedup : List String → List String
  | [] => []
  | x :: xs => x :: (dedup xs).filter (fun y => y ≠ x)

/-- Python membership of a possibly-None attribute in a set of labels. -/
def optMem (o : Option String) (l : List String) : Bool :=
  match o with
  | some s => l.contains s
  | none => false

/-- groups.py _get_glyphs_with_rtl_kerning: the set of glyph names
participating in RTL kerning, directly or through group membership.
Short-circuits to the empty set when the font has no RTL table. -/
def _get_glyphs_with_rtl_kerning (font : GSFont) : Except String (List String) :=
  if font.kerningRTL.isEmpty then .ok [] else do
    let ids := dedup (font.masters.map (fun m =>
      match m.metricsSource with | some s => s | none => m.id))
    let acc ← scanIds font ⟨[], [], []⟩ ids
    .ok (acc.rtl_glyphs ++
      (font.glyphs.filter (fun g =>
        (!(acc.rtl_glyphs.contains g.name)) &&
        (optMem g.leftKerningGroup acc.leftGroups ||
         optMem g.rightKerningGroup acc.rightGroups))).map (fun g => g.name))

/-- Modelled from the spec: UFO_KERN_GROUP_PATTERN from constants.py (not
under src/): kerning group names have the form public.kern{1|2}.label;
matching yields the side and the label (the label may be empty). -/
def parseKernGroup (name : String) : Option (Nat × String) :=
  if strStartsWith name "public.kern1." then some (1, strDrop name 13)
  else if strStartsWith name "public.kern2." then some (2, strDrop name 13)
  else none

/-- groups.py _is_kerning_group. -/
def _is_kerning_group (name : String) : Bool :=
  strStartsWith name "public.kern1." || strStartsWith name "public.kern2."

/-- The UFO group name built by to_ufo_groups for a side and a label. -/
def kernKeyStr (side : Nat) (lbl : String) : String :=
  "public.kern" ++ toString side ++ "." ++ lbl

/-- Split a character list at every occurrence of a separator, keeping
empty segments (the behaviour of Python str.split with an explicit
single-character separator). -/
def splitOnChar (sep : Char) : List Char → List (List Char)
  | [] => [[]]
  | c :: rest =>
      if c = sep then [] :: splitOnChar sep rest
      else
        match splitOnChar sep rest with
        | [] => [[c]]
        | h :: t => (c :: h) :: t

/-- Python code.split on a single space. -/
def pySplitSpace (s : String) : List String := (splitOnChar ' ' s.data).map String.mk

/-- Step 1 of to_ufo_groups: seed the table with the flagged non-feature
classes, an empty code string giving an empty member list. -/
def step1 (classes : List GSClass) (flagged : List String) (groups : AL) : AL :=
  match classes with
  | [] => groups
  | c :: rest =>
      step1 rest flagged
        (if flagged.contains c.name then
           alSet groups c.name (if c.code ≠ "" then pySplitSpace c.code else [])
         else groups)

/-- Validity check of one recorded (group, glyph) pair during metadata
replay: the glyph no longer exists, or still carries the recorded label. -/
def validOrig (font : GSFont) (side : Nat) (group_name : String) (x : String) : Bool :=
  match font.glyphs.find? (fun g => g.name == x) with
  | none => true
  | some glyph =>
      match _glyph_kerning_attr side with
      | some a => glyph.getAttr a == some group_name
      | none => false

/-- Replay the member list of one recorded group, appending the still
valid members in recorded order and marking them recovered.  The source
re-matches the group-name pattern for each member; the match only
depends on the group name, so it is hoisted into step2. -/
def step2members (font : GSFont) (G : String) (side : Nat) (group_name : String) :
    List String → AL × List (String × Nat) → AL × List (String × Nat)
  | [], st => st
  | x :: rest, st =>
      step2members font G side group_name rest
        (if validOrig font side group_name x then
           (alAppend st.1 G x, st.2 ++ [(x, side)])
         else st)

/-- Step 2 of to_ufo_groups: replay the recorded round-trip metadata.
An empty recorded group is restored as an empty entry; a non-empty one
has its name matched against the kern-group pattern (a failed match
raises in the source) and its valid members replayed. -/
def step2 (font : GSFont) : AL → AL × List (String × Nat) →
    Except String (AL × List (String × Nat))
  | [], st => .ok st
  | (G, glyphs) :: rest, st =>
      match glyphs with
      | [] => step2 font rest (alSet st.1 G [], st.2)
      | x :: xs =>
          match parseKernGroup G with
          | none => .error ("unrecognized group name in stored kerning groups: " ++ G)
          | some (side, group_name) =>
              step2 font rest (step2members font G side group_name (x :: xs) st)

/-- One side of step 3 for one glyph: if the (glyph, side) pair was not
recovered, read the attribute resolved with the RTL flip and append the
glyph to the corresponding public.kern group when the label is truthy.
The none branch of the attribute resolution is unreachable: step3 only
passes sides 1 and 2. -/
def step3side (g : GSGlyph) (is_rtl : Bool) (side : Nat)
    (recovered : List (String × Nat)) (groups : AL) : AL :=
  if recovered.contains (g.name, side) then groups else
  match _glyph_kerning_attr side is_rtl with
  | none => groups
  | some a =>
      match g.getAttr a with
      | none => groups
      | some lbl => if lbl = "" then groups else alAppend groups (kernKeyStr side lbl) g.name

/-- Step 3 of to_ufo_groups: read the new or modified grouping values of
every glyph, sides 1 then 2, flipping sides for RTL glyphs. -/
def step3 (glyphs : List GSGlyph) (rtl : List String)
    (recovered : List (String × Nat)) (groups : AL) : AL :=
  match glyphs with
  | [] => groups
  | g :: rest =>
      step3 rest rtl recovered
        (step3side g (rtl.contains g.name) 2 recovered
          (step3side g (rtl.contains g.name) 1 recovered groups))

/-- The group table built once by to_ufo_groups from the design font. -/
def buildGroups (font : GSFont) : Except String AL := do
  let groups := step1 font.classes (font.userDataGroupsNotInFeature.getD []) []
  let st ← step2 font (font.userDataOrigGroups.getD []) (groups, [])
  let rtl ← _get_glyphs_with_rtl_kerning font
  .ok (step3 font.glyphs rtl st.2 st.1)

/-- Write the built table into one build-font instance (each list is
shallow-copied in the source; copying is implicit here). -/
def applyTable (table : AL) (u : UFOFont) : UFOFont :=
  { u with groups := table.foldl (fun gs p => alSet gs p.1 p.2) u.groups }

/-- groups.py to_ufo_groups: build the table once, apply it to every
build-font instance. -/
def to_ufo_groups (b : Builder) : Except String Builder := do
  let table ← buildGroups b.font
  .ok { b with sources := b.sources.map (applyTable table) }

/-- Boolean infix test on character lists. -/
def charsInfix (pat : List Char) : List Char → Bool
  | [] => pat.isEmpty
  | c :: rest => pat.isPrefixOf (c :: rest) || charsInfix pat rest

/-- Modelled from the spec: BRACKET_GLYPH_RE from constants.py (not under
src/): matches the synthesized bracket-variant glyph names, which carry a
reserved BRACKET (or REV_BRACKET) component between dots. -/
def isBracketGlyph (name : String) : Bool :=
  charsInfix ".BRACKET.".data name.data || charsInfix ".REV_BRACKET.".data name.data

/-- groups.py _to_glyphs_kerning_group: record the group into round-trip
metadata when preservation is requested, then write the decoded label
onto the corresponding attribute of every member glyph still in the
font (looking a glyph up and mutating it in place is modelled as a
name-guarded map; absent names leave the font unchanged). -/
def _to_glyphs_kerning_group (minimize : Bool) (font : GSFont)
    (name : String) (glyphs : List String) : Except String GSFont :=
  let font :=
    if minimize then
      { font with userDataOrigGroups := some (alSet (font.userDataOrigGroups.getD []) name glyphs) }
    else font
  match parseKernGroup name with
  | none => .error ("not a kerning group name: " ++ name)
  | some (side, group_name) =>
      match _glyph_kerning_attr side with
      | none => .error ("invalid kerning side: " ++ toString side)
      | some a =>
          .ok (glyphs.foldl (fun f x =>
            { f with glyphs := f.glyphs.map (fun g =>
                if g.name == x then g.setAttr a (some group_name) else g) }) font)

/-- Process one group of the reference build-font instance during
write-back: filter out bracket glyphs, then either write a kerning group
back onto glyph attributes or append a non-kerning class. -/
def processGroup (minimize : Bool) (st : GSFont × List String)
    (name : String) (glyphs0 : List String) : Except String (GSFont × List String) :=
  let glyphs := glyphs0.filter (fun n => !(isBracketGlyph n))
  if _is_kerning_group name then do
    let f ← _to_glyphs_kerning_group minimize st.1 name glyphs
    .ok (f, st.2)
  else
    .ok ({ st.1 with classes := st.1.classes ++ [⟨name, String.intercalate " " glyphs⟩] },
         st.2 ++ [name])

/-- Process all groups of the reference instance in order, collecting the
names of the non-kerning classes. -/
def processGroups (minimize : Bool) : AL → GSFont × List String →
    Except String (GSFont × List String)
  | [], st => .ok st
  | (name, gl) :: rest, st => do
      let st ← processGroup minimize st name gl
      processGroups minimize rest st

/-- One warning message of the consistency checker. -/
inductive Warning
  | header (refName : String)
  | lost (group : String) (ufoName : String)
  | inaccurate (group : String) (ufoName : String)
  | referenceList (line : String)
  | currentList (line : String)
deriving DecidableEq

/-- os.path.basename, on slash-separated paths. -/
def basename (p : String) : String :=
  (((splitOnChar '/' p.data).map String.mk).getLast?).getD p

/-- groups.py _ufo_logging_ref: identify a UFO by file name when it has a
(truthy) path, else by style name. -/
def _ufo_logging_ref (u : UFOFont) : String :=
  match u.path with
  | some p => if p = "" then u.styleName else basename p
  | none => u.styleName

/-- Code-point lexicographic comparison of character lists (the string
order Python sorted uses). -/
def charListLe : List Char → List Char → Bool
  | [], _ => true
  | _ :: _, [] => false
  | a :: as, b :: bs =>
      if a.toNat < b.toNat then true
      else if b.toNat < a.toNat then false
      else charListLe as bs

/-- Python string comparison a <= b on code points. -/
def pyStrLe (a b : String) : Bool := charListLe a.data b.data

/-- Insertion into a sorted list of strings. -/
def insertSorted (x : String) : List String → List String
  | [] => [x]
  | y :: ys => if pyStrLe x y then x :: y :: ys else y :: insertSorted x ys

/-- Python sorted on a list of strings (code-point lexicographic). -/
def sortStrings (l : List String) : List String := l.foldr insertSorted []

/-- Python set(a) == set(b) on lists of glyph names. -/
def eqAsSets (a b : List String) : Bool :=
  a.all (fun x => b.contains x) && b.all (fun x => a.contains x)

/-- The warnings of _assert_groups_are_identical for each group of the
candidate instance: a group missing from the reference is reported as
lost; a shared group with a different glyph set is reported as stored
inaccurately together with both sorted member lists. -/
def checkCore (refGroups : AL) (candName : String) : AL → List Warning
  | [] => []
  | (G, glyphs) :: rest =>
      (match alLookup refGroups G with
       | none => [Warning.lost G candName]
       | some refGlyphs =>
           if eqAsSets glyphs refGlyphs then []
           else [Warning.inaccurate G candName,
                 Warning.referenceList (String.intercalate " " (sortStrings refGlyphs)),
                 Warning.currentList (String.intercalate " " (sortStrings glyphs))])
      ++ checkCore refGroups candName rest

/-- groups.py _assert_groups_are_identical: the emitted warnings, with
the header identifying the reference instance prepended before the first
warning only. -/
def _assert_groups_are_identical (reference u : UFOFont) : List Warning :=
  let core := checkCore reference.groups (_ufo_logging_ref u) u.groups
  match core with
  | [] => []
  | _ => Warning.header (_ufo_logging_ref reference) :: core

/-- groups.py to_glyphs_groups: write the first instance's groups back
onto the design font, record round-trip metadata when requested, then
check every other instance against the first and collect the warnings. -/
def to_glyphs_groups (b : Builder) : Except String (Builder × List Warning) :=
  match b.sources with
  | [] => .ok (b, [])
  | first :: rest => do
      let st ← processGroups b.minimize_ufo_diffs first.groups (b.font, [])
      let font := st.1
      let font :=
        if b.minimize_ufo_diffs then
          { font with userDataGroupsNotInFeature := some st.2 }
        else font
      .ok ({ b with font := font },
           rest.foldl (fun ws u => ws ++ _assert_groups_are_identical first u) [])

/-- The per-glyph kerning-group labels of a design font, in glyph order. -/
def glyphLabels (f : GSFont) : List (String × Option String × Option String) :=
  f.glyphs.map (fun g => (g.name, g.leftKerningGroup, g.rightKerningGroup))

end GlyphsGroups

namespace GlyphsGroups

/-! ### Association-list lemmas -/

theorem alSet_cons {α : Type} (k' : String) (v' : α) (l : List (String × α)) (k : String)
    (v : α) :
    alSet ((k', v') :: l) k v = if k' = k then (k, v) :: l else (k', v') :: alSet l k v := by
  simp [alSet]

theorem alLookup_nil {α : Type} (k : String) : alLookup ([] : List (String × α)) k = none := rfl

theorem alLookup_cons {α : Type} (k' : String) (v : α) (l : List (String × α)) (k : String) :
    alLookup ((k', v) :: l) k = if k' = k then some v else alLookup l k := by
  by_cases h : k' = k
  · subst h
    have hb : (k' == k') = true := beq_self_eq_true k'
    simp [alLookup, List.find?, hb]
  · have hb : (k' == k) = false := beq_eq_false_iff_ne.mpr h
    simp [alLookup, List.find?, hb, h]

theorem alLookup_isSome_iff {α : Type} (l : List (String × α)) (k : String) :
    (alLookup l k).isSome = true ↔ k ∈ l.map Prod.fst := by
  induction l with
  | nil => simp [alLookup]
  | cons p rest ih =>
      obtain ⟨k', v⟩ := p
      rw [alLookup_cons]
      by_cases h : k' = k
      · subst h
        simp
      · simp [h, ih, Ne.symm h]

theorem alLookup_eq_none_iff {α : Type} (l : List (String × α)) (k : String) :
    alLookup l k = none ↔ k ∉ l.map Prod.fst := by
  rw [← alLookup_isSome_iff]
  cases alLookup l k <;> simp

theorem alLookup_alSet_self {α : Type} (l : List (String × α)) (k : String) (v : α) :
    alLookup (alSet l k v) k = some v := by
  induction l with
  | nil => rw [show alSet ([] : List (String × α)) k v = [(k, v)] from rfl, alLookup_cons,
      if_pos rfl]
  | cons p rest ih =>
      obtain ⟨k', v'⟩ := p
      rw [alSet_cons]
      by_cases h : k' = k
      · rw [if_pos h, alLookup_cons, if_pos rfl]
      · rw [if_neg h, alLookup_cons, if_neg h]
        exact ih

theorem alLookup_alSet_ne {α : Type} (l : List (String × α)) (k k' : String) (v : α)
    (h : k' ≠ k) : alLookup (alSet l k v) k' = alLookup l k' := by
  induction l with
  | nil => rw [show alSet ([] : List (String × α)) k v = [(k, v)] from rfl, alLookup_cons,
      if_neg (Ne.symm h), alLookup_nil]
  | cons p rest ih =>
      obtain ⟨k'', v''⟩ := p
      rw [alSet_cons]
      by_cases he : k'' = k
      · rw [if_pos he, alLookup_cons, alLookup_cons, if_neg (Ne.symm h),
          if_neg (fun hq : k'' = k' => h (hq ▸ he))]
      · rw [if_neg he, alLookup_cons, alLookup_cons]
        by_cases hq : k'' = k'
        · rw [if_pos hq, if_pos hq]
        · rw [if_neg hq, if_neg hq]
          exact ih

theorem alLookup_alAppend_self (l : AL) (k x : String) :
    alLookup (alAppend l k x) k = some (((alLookup l k).getD []) ++ [x]) :=
  alLookup_alSet_self l k _

theorem alLookup_alAppend_ne (l : AL) (k k' x : String) (h : k' ≠ k) :
    alLookup (alAppend l k x) k' = alLookup l k' :=
  alLookup_alSet_ne l k k' _ h

theorem keys_alSet_mem {α : Type} (l : List (String × α)) (k k' : String) (v : α) :
    k' ∈ (alSet l k v).map Prod.fst ↔ k' ∈ l.map Prod.fst ∨ k' = k := by
  by_cases he : k' = k
  · subst he
    simp only [or_true, iff_true, ← alLookup_isSome_iff, alLookup_alSet_self, Option.isSome_some]
  · rw [← alLookup_isSome_iff, ← alLookup_isSome_iff, alLookup_alSet_ne l k k' v he]
    simp [he]

theorem keys_alAppend_mem (l : AL) (k k' x : String) :
    k' ∈ (alAppend l k x).map Prod.fst ↔ k' ∈ l.map Prod.fst ∨ k' = k :=
  keys_alSet_mem l k k' _

theorem keys_alSet_nodup {α : Type} (l : List (String × α)) (k : String) (v : α)
    (h : (l.map Prod.fst).Nodup) : ((alSet l k v).map Prod.fst).Nodup := by
  induction l with
  | nil => simp [alSet]
  | cons p rest ih =>
      obtain ⟨k', v'⟩ := p
      simp only [List.map_cons, List.nodup_cons] at h
      rw [alSet_cons]
      by_cases he : k' = k
      · subst he
        rw [if_pos rfl]
        simpa using h
      · rw [if_neg he]
        simp only [List.map_cons, List.nodup_cons]
        refine ⟨?_, ih h.2⟩
        intro hc
        rcases (keys_alSet_mem rest k k' v).mp hc with hm | hm
        · exact h.1 hm
        · exact he hm

theorem keys_alAppend_nodup (l : AL) (k x : String)
    (h : (l.map Prod.fst).Nodup) : ((alAppend l k x).map Prod.fst).Nodup :=
  keys_alSet_nodup l k _ h

theorem alLookup_mem {α : Type} (l : List (String × α)) (k : String) (v : α)
    (h : alLookup l k = some v) : (k, v) ∈ l := by
  induction l with
  | nil => simp [alLookup_nil] at h
  | cons p rest ih =>
      obtain ⟨k', v'⟩ := p
      rw [alLookup_cons] at h
      by_cases he : k' = k
      · rw [if_pos he] at h
        cases h
        rw [he]
        exact List.mem_cons_self _ _
      · rw [if_neg he] at h
        exact List.mem_cons_of_mem _ (ih h)

theorem alLookup_eq_some_of_mem_nodup {α : Type} (l : List (String × α))
    (hnd : (l.map Prod.fst).Nodup) (k : String) (v : α) (h : (k, v) ∈ l) :
    alLookup l k = some v := by
  induction l with
  | nil => simp at h
  | cons p rest ih =>
      obtain ⟨k', v'⟩ := p
      simp only [List.map_cons, List.nodup_cons] at hnd
      rw [alLookup_cons]
      rcases List.mem_cons.mp h with he | hm
      · rw [Prod.mk.injEq] at he
        rw [if_pos he.1.symm, he.2]
      · have hk : k' ≠ k := by
          intro hq
          subst hq
          exact hnd.1 (List.mem_map.mpr ⟨(k', v), hm, rfl⟩)
        rw [if_neg hk]
        exact ih hnd.2 hm

end GlyphsGroups

namespace GlyphsGroups

/-! ### C3: side/attribute resolution -/

/-- C3: the side/attribute resolution returns rightKerningGroup for side 1
and leftKerningGroup for side 2 when the RTL flag is false, the flipped
attributes when the RTL flag is true, and fails (assertion, modelled as
none) for every side outside 1 and 2. -/
theorem c3_side_resolution :
    _glyph_kerning_attr 1 false = some KerningAttr.rightKerningGroup ∧
    _glyph_kerning_attr 2 false = some KerningAttr.leftKerningGroup ∧
    _glyph_kerning_attr 1 true = some KerningAttr.leftKerningGroup ∧
    _glyph_kerning_attr 2 true = some KerningAttr.rightKerningGroup ∧
    ∀ (side : Nat), side ≠ 1 → side ≠ 2 → ∀ (is_rtl : Bool),
      _glyph_kerning_attr side is_rtl = none := by
  refine ⟨by decide, by decide, by decide, by decide, ?_⟩
  intro side h1 h2 is_rtl
  simp [_glyph_kerning_attr, h1, h2]

/-- Witness for C3 at concrete inputs, including the failing side 0. -/
theorem c3_side_resolution_witness :
    _glyph_kerning_attr 0 false = none ∧ _glyph_kerning_attr 3 true = none :=
  ⟨c3_side_resolution.2.2.2.2 0 (by decide) (by decide) false,
   c3_side_resolution.2.2.2.2 3 (by decide) (by decide) true⟩

/-! ### Consistency-checker lemmas (C5, C9) -/

/-- The group name a warning message is about, when it names one. -/
def warnGroup : Warning → Option String
  | .lost g _ => some g
  | .inaccurate g _ => some g
  | .header _ => none
  | .referenceList _ => none
  | .currentList _ => none

/-- Recognizer of the will-not-be-stored-accurately warning. -/
def isInaccurateW : Warning → Bool
  | .inaccurate _ _ => true
  | _ => false

/-- A candidate group that is present in the reference with a different
glyph set. -/
def mismatchP (refG : AL) (p : String × List String) : Bool :=
  match alLookup refG p.1 with
  | some r => !(eqAsSets p.2 r)
  | none => false

/-- The candidate groups whose glyph set differs from the reference. -/
def mismatches (refG : AL) (entries : AL) : AL := entries.filter (mismatchP refG)

theorem eqAsSets_refl (l : List String) : eqAsSets l l = true := by
  simp only [eqAsSets, Bool.and_self, List.all_eq_true]
  intro x hx
  exact List.elem_iff.mpr hx

theorem checkCore_warnGroup_mem (refG : AL) (nm : String) (entries : AL) (w : Warning)
    (hw : w ∈ checkCore refG nm entries) (G : String) (hg : warnGroup w = some G) :
    G ∈ entries.map Prod.fst := by
  induction entries with
  | nil => simp [checkCore] at hw
  | cons e rest ih =>
      obtain ⟨k, gl⟩ := e
      simp only [checkCore, List.mem_append] at hw
      rcases hw with h1 | h2
      · cases hl : alLookup refG k with
        | none =>
            rw [hl] at h1
            simp only [List.mem_singleton] at h1
            subst h1
            simp only [warnGroup, Option.some.injEq] at hg
            simp [hg]
        | some rg =>
            rw [hl] at h1
            by_cases he : eqAsSets gl rg = true
            · simp [he] at h1
            · simp only [he, Bool.false_eq_true, if_false, List.mem_cons,
                List.not_mem_nil, or_false] at h1
              rcases h1 with h1 | h1 | h1
              · subst h1
                simp only [warnGroup, Option.some.injEq] at hg
                simp [hg]
              · subst h1
                simp [warnGroup] at hg
              · subst h1
                simp [warnGroup] at hg
      · right
        exact ih h2

theorem checkCore_eq_nil (refG : AL) (nm : String) (entries : AL)
    (h : ∀ p ∈ entries, alLookup refG p.1 = some p.2) :
    checkCore refG nm entries = [] := by
  induction entries with
  | nil => rfl
  | cons e rest ih =>
      obtain ⟨k, gl⟩ := e
      have hk := h (k, gl) (List.mem_cons_self _ _)
      simp only [checkCore, hk, eqAsSets_refl, if_true, List.nil_append]
      exact ih (fun p hp => h p (List.mem_cons_of_mem _ hp))

theorem checkCore_filter_inaccurate (refG : AL) (nm : String) (entries : AL) :
    (checkCore refG nm entries).filter isInaccurateW =
      (mismatches refG entries).map (fun p => Warning.inaccurate p.1 nm) := by
  induction entries with
  | nil => rfl
  | cons e rest ih =>
      obtain ⟨k, gl⟩ := e
      simp only [checkCore, List.filter_append, ih, mismatches]
      cases hl : alLookup refG k with
      | none =>
          rw [List.filter_cons]
          simp [mismatchP, hl, isInaccurateW, List.filter]
      | some rg =>
          rw [List.filter_cons]
          by_cases he : eqAsSets gl rg = true
          · simp [mismatchP, hl, he, isInaccurateW, List.filter]
          · have hb : eqAsSets gl rg = false := Bool.eq_false_iff.mpr he
            simp [mismatchP, hl, hb, isInaccurateW, List.filter]

theorem checkCore_sorted_lists_mem (refG : AL) (nm : String) (entries : AL)
    (G : String) (gl rg : List String) (hmem : (G, gl) ∈ entries)
    (hl : alLookup refG G = some rg) (hne : eqAsSets gl rg = false) :
    Warning.referenceList (String.intercalate " " (sortStrings rg)) ∈
        checkCore refG nm entries ∧
    Warning.currentList (String.intercalate " " (sortStrings gl)) ∈
        checkCore refG nm entries := by
  induction entries with
  | nil => simp at hmem
  | cons e rest ih =>
      obtain ⟨k, gl'⟩ := e
      rcases List.mem_cons.mp hmem with he | hm
      · rw [Prod.mk.injEq] at he
        obtain ⟨hk, hgl⟩ := he
        subst hk
        subst hgl
        simp only [checkCore, hl, hne, Bool.false_eq_true, if_false, List.mem_append]
        constructor
        · left
          simp
        · left
          simp
      · have := ih hm
        simp only [checkCore, List.mem_append]
        exact ⟨Or.inr this.1, Or.inr this.2⟩

/-- C5: the consistency checker emits no warning for two instances with
identical group tables; and when every candidate group is shared with the
reference and exactly one of them has a different glyph set, it emits
exactly one will-not-be-stored-accurately warning naming that group,
together with both member lists sorted.  The checker is a total function
(it never raises). -/
theorem c5_checker_warnings :
    (∀ (reference cand : UFOFont), reference.groups = cand.groups →
       (cand.groups.map Prod.fst).Nodup →
       _assert_groups_are_identical reference cand = []) ∧
    (∀ (reference cand : UFOFont) (G : String) (gl rg : List String),
       (∀ p ∈ cand.groups, (alLookup reference.groups p.1).isSome) →
       mismatches reference.groups cand.groups = [(G, gl)] →
       alLookup reference.groups G = some rg →
       ((_assert_groups_are_identical reference cand).filter isInaccurateW =
          [Warning.inaccurate G (_ufo_logging_ref cand)] ∧
        Warning.referenceList (String.intercalate " " (sortStrings rg)) ∈
          _assert_groups_are_identical reference cand ∧
        Warning.currentList (String.intercalate " " (sortStrings gl)) ∈
          _assert_groups_are_identical reference cand)) := by
  constructor
  · intro reference cand heq hnd
    have : checkCore reference.groups (_ufo_logging_ref cand) cand.groups = [] := by
      refine checkCore_eq_nil _ _ _ ?_
      intro p hp
      rw [heq]
      exact alLookup_eq_some_of_mem_nodup _ hnd _ _ (by cases p; exact hp)
    simp [_assert_groups_are_identical, this]
  · intro reference cand G gl rg _ hmis hrg
    have hfil := checkCore_filter_inaccurate reference.groups (_ufo_logging_ref cand)
      cand.groups
    rw [hmis] at hfil
    have hGgl : (G, gl) ∈ cand.groups := by
      have : (G, gl) ∈ mismatches reference.groups cand.groups := by
        rw [hmis]
        simp
      exact List.mem_of_mem_filter this
    have hmp : mismatchP reference.groups (G, gl) = true := by
      have : (G, gl) ∈ mismatches reference.groups cand.groups := by
        rw [hmis]
        simp
      exact List.of_mem_filter this
    have hne : eqAsSets gl rg = false := by
      simp only [mismatchP, hrg, Bool.not_eq_eq_eq_not, Bool.not_true] at hmp
      simpa using hmp
    have hmem := checkCore_sorted_lists_mem reference.groups (_ufo_logging_ref cand)
      cand.groups G gl rg hGgl hrg hne
    cases hcore : checkCore reference.groups (_ufo_logging_ref cand) cand.groups with
    | nil =>
        rw [hcore] at hfil
        simp at hfil
    | cons w ws =>
        have hassert : _assert_groups_are_identical reference cand =
            Warning.header (_ufo_logging_ref reference) :: w :: ws := by
          simp [_assert_groups_are_identical, hcore]
        rw [hcore] at hfil hmem
        rw [hassert]
        refine ⟨?_, List.mem_cons_of_mem _ hmem.1, List.mem_cons_of_mem _ hmem.2⟩
        rw [List.filter_cons]
        simpa [isInaccurateW] using hfil

/-- Witness for C5: a concrete identical pair yields no warnings, and a
concrete pair differing in one group yields exactly the one warning with
both sorted lists. -/
theorem c5_checker_warnings_witness :
    _assert_groups_are_identical ⟨[("public.kern1.A", ["a", "b"])], none, "R"⟩
        ⟨[("public.kern1.A", ["a", "b"])], none, "C"⟩ = [] ∧
    ((_assert_groups_are_identical ⟨[("public.kern1.A", ["a", "b"])], some "/tmp/one.ufo", "R"⟩
        ⟨[("public.kern1.A", ["b", "c"])], none, "Two"⟩).filter isInaccurateW =
      [Warning.inaccurate "public.kern1.A" "Two"] ∧
     Warning.referenceList "a b" ∈
       _assert_groups_are_identical ⟨[("public.kern1.A", ["a", "b"])], some "/tmp/one.ufo", "R"⟩
         ⟨[("public.kern1.A", ["b", "c"])], none, "Two"⟩ ∧
     Warning.currentList "b c" ∈
       _assert_groups_are_identical ⟨[("public.kern1.A", ["a", "b"])], some "/tmp/one.ufo", "R"⟩
         ⟨[("public.kern1.A", ["b", "c"])], none, "Two"⟩) := by
  constructor
  · exact c5_checker_warnings.1 _ _ rfl (by decide)
  · exact c5_checker_warnings.2 ⟨[("public.kern1.A", ["a", "b"])], some "/tmp/one.ufo", "R"⟩
      ⟨[("public.kern1.A", ["b", "c"])], none, "Two"⟩ "public.kern1.A" ["b", "c"] ["a", "b"]
      (by decide) (by decide) (by decide)

/-- C9: the consistency checker iterates only over the candidate groups,
so a group present in the reference instance but absent from the
candidate is never named in any warning. -/
theorem c9_reference_only_group_silent (reference cand : UFOFont) (G : String)
    (href : (alLookup reference.groups G).isSome = true)
    (habs : ∀ p ∈ cand.groups, p.1 ≠ G) :
    ∀ w ∈ _assert_groups_are_identical reference cand, warnGroup w ≠ some G := by
  intro w hw hg
  unfold _assert_groups_are_identical at hw
  cases hcore : checkCore reference.groups (_ufo_logging_ref cand) cand.groups with
  | nil =>
      rw [hcore] at hw
      simp at hw
  | cons w' ws =>
      rw [hcore] at hw
      simp only [List.mem_cons] at hw
      rcases hw with hw | hw
      · subst hw
        simp [warnGroup] at hg
      · have hmem : G ∈ cand.groups.map Prod.fst := by
          refine checkCore_warnGroup_mem reference.groups (_ufo_logging_ref cand)
            cand.groups w ?_ G hg
          rw [hcore]
          exact List.mem_cons.mpr hw
        obtain ⟨p, hp, hpe⟩ := List.mem_map.mp hmem
        exact habs p hp hpe

/-- Witness for C9: the emitted lost-group warning of a concrete checker
run does not name the reference-only group X. -/
theorem c9_reference_only_group_silent_witness :
    warnGroup (Warning.lost "Y" "C") ≠ some "X" :=
  c9_reference_only_group_silent ⟨[("X", ["a"])], none, "R"⟩ ⟨[("Y", ["b"])], none, "C"⟩ "X"
    (by decide) (by decide) (Warning.lost "Y" "C") (by decide)

end GlyphsGroups

namespace GlyphsGroups

/-! ### C6: malformed RTL keys -/

/-- A key acceptable at a position of the RTL table: either it carries
the full expected marker for that position, or no marker at all. -/
def goodKey (s side : String) : Bool :=
  strStartsWith s ("@MMK_" ++ side ++ "_") || !(strStartsWith s "@MMK_")

/-- Whether an Except value is an error. -/
def isErr {ε α : Type} : Except ε α → Bool
  | .error _ => true
  | .ok _ => false

theorem mark_as_rtl_err (acc : RTLAcc) (s side : String) (h : goodKey s side = false) :
    mark_as_rtl acc s side = .error ("unexpected key in kerningRTL: " ++ s) := by
  simp only [goodKey, Bool.or_eq_false_iff, Bool.not_eq_false'] at h
  simp [mark_as_rtl, h.1, h.2]

theorem mark_as_rtl_ok (acc : RTLAcc) (s side : String) (h : goodKey s side = true) :
    ∃ acc', mark_as_rtl acc s side = .ok acc' := by
  simp only [goodKey, Bool.or_eq_true, Bool.not_eq_true'] at h
  unfold mark_as_rtl
  by_cases h1 : strStartsWith s ("@MMK_" ++ side ++ "_") = true
  · simp only [h1, if_true]
    exact ⟨_, rfl⟩
  · rcases h with h | h
    · exact absurd h h1
    · simp only [Bool.not_eq_true] at h1
      simp only [h1, Bool.false_eq_true, if_false, h]
      exact ⟨_, rfl⟩

theorem scanSub_cons (acc : RTLAcc) (k2 : String) (v : Int) (rest : List (String × Int)) :
    scanSub acc ((k2, v) :: rest) = (mark_as_rtl acc k2 "L").bind (fun a => scanSub a rest) :=
  rfl

theorem scanSub_err (acc : RTLAcc) (sub : List (String × Int))
    (h : ∃ q ∈ sub, goodKey q.1 "L" = false) : isErr (scanSub acc sub) = true := by
  induction sub generalizing acc with
  | nil => simp at h
  | cons q rest ih =>
      obtain ⟨k2, v⟩ := q
      rw [scanSub_cons]
      by_cases hg : goodKey k2 "L" = true
      · obtain ⟨acc', hok⟩ := mark_as_rtl_ok acc k2 "L" hg
        rw [hok]
        obtain ⟨w, hw, hbad⟩ := h
        rcases List.mem_cons.mp hw with he | hm
        · subst he
          rw [hg] at hbad
          cases hbad
        · exact ih acc' ⟨w, hm, hbad⟩
      · rw [mark_as_rtl_err acc k2 "L" (Bool.eq_false_iff.mpr hg)]
        rfl

theorem scanSub_ok (acc : RTLAcc) (sub : List (String × Int))
    (h : ∀ q ∈ sub, goodKey q.1 "L" = true) : ∃ acc', scanSub acc sub = .ok acc' := by
  induction sub generalizing acc with
  | nil => exact ⟨acc, rfl⟩
  | cons q rest ih =>
      obtain ⟨k2, v⟩ := q
      rw [scanSub_cons]
      obtain ⟨acc', hok⟩ := mark_as_rtl_ok acc k2 "L" (h (k2, v) (List.mem_cons_self _ _))
      rw [hok]
      exact ih acc' (fun q hq => h q (List.mem_cons_of_mem _ hq))

theorem exceptBindOk {ε α β : Type} (a : α) (f : α → Except ε β) :
    (Except.ok a : Except ε α).bind f = f a := rfl

theorem exceptBindErr {ε α β : Type} (e : ε) (f : α → Except ε β) :
    (Except.error e : Except ε α).bind f = .error e := rfl

theorem scanTable_cons (acc : RTLAcc) (k1 : String) (sub : List (String × Int))
    (rest : List (String × List (String × Int))) :
    scanTable acc ((k1, sub) :: rest) =
      (mark_as_rtl acc k1 "R").bind (fun a => (scanSub a sub).bind (fun a => scanTable a rest)) :=
  rfl

/-- A kerning-context table with at least one malformed key. -/
def badTable (t : List (String × List (String × Int))) : Prop :=
  (∃ p ∈ t, goodKey p.1 "R" = false) ∨ (∃ p ∈ t, ∃ q ∈ p.2, goodKey q.1 "L" = false)

theorem scanTable_err (acc : RTLAcc) (t : List (String × List (String × Int)))
    (h : badTable t) : isErr (scanTable acc t) = true := by
  induction t generalizing acc with
  | nil => rcases h with ⟨p, hp, _⟩ | ⟨p, hp, _⟩ <;> simp at hp
  | cons e rest ih =>
      obtain ⟨k1, sub⟩ := e
      rw [scanTable_cons]
      by_cases hg : goodKey k1 "R" = true
      · obtain ⟨acc', hok⟩ := mark_as_rtl_ok acc k1 "R" hg
        rw [hok, exceptBindOk]
        by_cases hsub : ∃ q ∈ sub, goodKey q.1 "L" = false
        · have := scanSub_err acc' sub hsub
          cases hs : scanSub acc' sub with
          | error e => rfl
          | ok a =>
              rw [hs] at this
              cases this
        · push_neg at hsub
          have hsubok : ∀ q ∈ sub, goodKey q.1 "L" = true := by
            intro q hq
            cases hval : goodKey q.1 "L" with
            | true => rfl
            | false => exact absurd hval (hsub q hq)
          obtain ⟨acc'', hok2⟩ := scanSub_ok acc' sub hsubok
          rw [hok2, exceptBindOk]
          refine ih acc'' ?_
          rcases h with ⟨p, hp, hbad⟩ | ⟨p, hp, q, hq, hbad⟩
          · rcases List.mem_cons.mp hp with he | hm
            · subst he
              rw [hg] at hbad
              cases hbad
            · exact Or.inl ⟨p, hm, hbad⟩
          · rcases List.mem_cons.mp hp with he | hm
            · subst he
              exact absurd hbad (by simpa using hsub q hq)
            · exact Or.inr ⟨p, hm, q, hq, hbad⟩
      · rw [mark_as_rtl_err acc k1 "R" (Bool.eq_false_iff.mpr hg)]
        rfl

theorem scanIds_cons (font : GSFont) (acc : RTLAcc) (i : String) (rest : List String) :
    scanIds font acc (i :: rest) =
      (scanTable acc ((alLookup font.kerningRTL i).getD [])).bind
        (fun a => scanIds font a rest) :=
  rfl

theorem scanIds_err (font : GSFont) (acc : RTLAcc) (ids : List String)
    (h : ∃ i ∈ ids, badTable ((alLookup font.kerningRTL i).getD [])) :
    isErr (scanIds font acc ids) = true := by
  induction ids generalizing acc with
  | nil => simp at h
  | cons i rest ih =>
      rw [scanIds_cons]
      obtain ⟨j, hj, hbad⟩ := h
      rcases List.mem_cons.mp hj with he | hm
      · subst he
        have := scanTable_err acc _ hbad
        cases hs : scanTable acc ((alLookup font.kerningRTL j).getD []) with
        | error e => rfl
        | ok a =>
            rw [hs] at this
            cases this
      · cases hs : scanTable acc ((alLookup font.kerningRTL i).getD []) with
        | error e => rfl
        | ok a => exact ih a ⟨j, hm, hbad⟩

theorem mem_dedup (l : List String) (y : String) : y ∈ dedup l ↔ y ∈ l := by
  induction l with
  | nil => simp [dedup]
  | cons x xs ih =>
      by_cases he : y = x
      · subst he
        simp [dedup]
      · simp [dedup, List.mem_filter, he, ih]

/-- C6 counterexample: a key carrying the marker with the wrong format,
sitting under a kerning-context id that no master uses, does not make the
derivation fail — the derivation succeeds and returns the empty set, so
the claim as stated (quantified over every key of the table) is false. -/
theorem c6_malformed_key_counterexample :
    _get_glyphs_with_rtl_kerning ⟨[], [⟨"m", none⟩], [("x", [("@MMK_X_a", [])])], [], none, none⟩
        = .ok [] ∧
    strStartsWith "@MMK_X_a" "@MMK_" = true ∧
    strStartsWith "@MMK_X_a" "@MMK_R_" = false ∧
    strStartsWith "@MMK_X_a" "@MMK_L_" = false := by
  exact ⟨rfl, rfl, rfl, rfl⟩

/-- C6 (amended): for every key that starts with the marker but does not
match the expected full prefix for its position and that sits in the RTL
table under a kerning context actually in use (the id of a master, or of
its designated metrics source), the RTL-glyph-set derivation fails
instead of returning a result. -/
theorem c6_malformed_key_fails (font : GSFont) (i : String)
    (sub : List (String × List (String × Int)))
    (hi : i ∈ font.masters.map (fun m =>
      match m.metricsSource with | some s => s | none => m.id))
    (hsub : alLookup font.kerningRTL i = some sub)
    (hbad : (∃ p ∈ sub, strStartsWith p.1 "@MMK_" = true ∧
               strStartsWith p.1 "@MMK_R_" = false) ∨
            (∃ p ∈ sub, ∃ q ∈ p.2, strStartsWith q.1 "@MMK_" = true ∧
               strStartsWith q.1 "@MMK_L_" = false)) :
    isErr (_get_glyphs_with_rtl_kerning font) = true := by
  have hne : font.kerningRTL.isEmpty = false := by
    cases hk : font.kerningRTL with
    | nil =>
        rw [hk] at hsub
        simp [alLookup_nil] at hsub
    | cons a l => rfl
  have hbad' : badTable ((alLookup font.kerningRTL i).getD []) := by
    rw [hsub]
    simp only [Option.getD_some]
    rcases hbad with ⟨p, hp, hm, hr⟩ | ⟨p, hp, q, hq, hm, hl⟩
    · refine Or.inl ⟨p, hp, ?_⟩
      simp [goodKey, hm, hr]
    · refine Or.inr ⟨p, hp, q, hq, ?_⟩
      simp [goodKey, hm, hl]
  have herr := scanIds_err font ⟨[], [], []⟩
    (dedup (font.masters.map (fun m =>
      match m.metricsSource with | some s => s | none => m.id)))
    ⟨i, (mem_dedup _ i).mpr hi, hbad'⟩
  unfold _get_glyphs_with_rtl_kerning
  rw [hne]
  simp only [Bool.false_eq_true, if_false]
  cases hs : scanIds font ⟨[], [], []⟩ (dedup (font.masters.map (fun m =>
      match m.metricsSource with | some s => s | none => m.id))) with
  | error e => rfl
  | ok a =>
      rw [hs] at herr
      cases herr

/-- Witness for the amended C6: the derivation fails on a concrete font
whose only master uses the context holding a malformed key. -/
theorem c6_malformed_key_fails_witness :
    isErr (_get_glyphs_with_rtl_kerning
      ⟨[], [⟨"m", none⟩], [("m", [("@MMK_X_a", [])])], [], none, none⟩) = true :=
  c6_malformed_key_fails ⟨[], [⟨"m", none⟩], [("m", [("@MMK_X_a", [])])], [], none, none⟩
    "m" [("@MMK_X_a", [])] (by decide) (by decide)
    (Or.inl ⟨("@MMK_X_a", []), by decide, by decide, by decide⟩)

end GlyphsGroups

namespace GlyphsGroups

/-! ### Kerning-group name lemmas -/

theorem kernKeyStr_one (lbl : String) : kernKeyStr 1 lbl = "public.kern1." ++ lbl := by
  apply String.ext
  simp only [kernKeyStr, String.data_append]
  rfl

theorem kernKeyStr_two (lbl : String) : kernKeyStr 2 lbl = "public.kern2." ++ lbl := by
  apply String.ext
  simp only [kernKeyStr, String.data_append]
  rfl

theorem strStartsWith_append (p t : String) : strStartsWith (p ++ t) p = true := by
  simp only [strStartsWith, String.data_append]
  exact List.isPrefixOf_iff_prefix.mpr (List.prefix_append _ _)

theorem strDrop_append13 (p t : String) (hp : p.data.length = 13) :
    strDrop (p ++ t) 13 = t := by
  simp only [strDrop, String.data_append]
  rw [← hp, List.drop_left]

theorem not_prefix_one_two (t : String) :
    strStartsWith ("public.kern2." ++ t) "public.kern1." = false := by
  rw [Bool.eq_false_iff]
  intro h
  rw [strStartsWith, String.data_append] at h
  obtain ⟨u, hu⟩ := List.isPrefixOf_iff_prefix.mp h
  have h13 := congrArg (List.take "public.kern1.".data.length) hu
  rw [List.take_left] at h13
  have h13' : "public.kern1.".data =
      List.take "public.kern2.".data.length ("public.kern2.".data ++ t.data) := h13
  rw [List.take_left] at h13'
  exact absurd h13' (by decide)

theorem parse_kernKeyStr_one (lbl : String) : parseKernGroup (kernKeyStr 1 lbl) = some (1, lbl) := by
  rw [kernKeyStr_one]
  unfold parseKernGroup
  rw [strStartsWith_append "public.kern1." lbl]
  simp only [if_true]
  rw [strDrop_append13 _ _ (by rfl)]

theorem parse_kernKeyStr_two (lbl : String) : parseKernGroup (kernKeyStr 2 lbl) = some (2, lbl) := by
  rw [kernKeyStr_two]
  unfold parseKernGroup
  rw [not_prefix_one_two]
  simp only [Bool.false_eq_true, if_false]
  rw [strStartsWith_append "public.kern2." lbl]
  simp only [if_true]
  rw [strDrop_append13 _ _ (by rfl)]

theorem parse_kernKeyStr (side : Nat) (hs : side = 1 ∨ side = 2) (lbl : String) :
    parseKernGroup (kernKeyStr side lbl) = some (side, lbl) := by
  rcases hs with h | h <;> subst h
  · exact parse_kernKeyStr_one lbl
  · exact parse_kernKeyStr_two lbl

theorem strStartsWith_decomp (s p : String) (h : strStartsWith s p = true) :
    s = p ++ strDrop s p.data.length := by
  simp only [strStartsWith] at h
  obtain ⟨u, hu⟩ := List.isPrefixOf_iff_prefix.mp h
  apply String.ext
  simp only [String.data_append, strDrop]
  rw [← hu, List.drop_left]

theorem parseKernGroup_inj (G : String) (side : Nat) (lbl : String)
    (h : parseKernGroup G = some (side, lbl)) :
    G = kernKeyStr side lbl ∧ (side = 1 ∨ side = 2) := by
  unfold parseKernGroup at h
  by_cases h1 : strStartsWith G "public.kern1." = true
  · rw [h1] at h
    simp only [if_true, Option.some.injEq, Prod.mk.injEq] at h
    obtain ⟨hside, hlbl⟩ := h
    subst hside
    refine ⟨?_, Or.inl rfl⟩
    rw [kernKeyStr_one, ← hlbl]
    exact strStartsWith_decomp G "public.kern1." h1
  · simp only [Bool.not_eq_true] at h1
    rw [h1] at h
    simp only [Bool.false_eq_true, if_false] at h
    by_cases h2 : strStartsWith G "public.kern2." = true
    · rw [h2] at h
      simp only [if_true, Option.some.injEq, Prod.mk.injEq] at h
      obtain ⟨hside, hlbl⟩ := h
      subst hside
      refine ⟨?_, Or.inr rfl⟩
      rw [kernKeyStr_two, ← hlbl]
      exact strStartsWith_decomp G "public.kern2." h2
    · simp only [Bool.not_eq_true] at h2
      rw [h2] at h
      simp at h

theorem kernKeyStr_inj (side side' : Nat) (hs : side = 1 ∨ side = 2)
    (hs' : side' = 1 ∨ side' = 2) (lbl lbl' : String)
    (h : kernKeyStr side lbl = kernKeyStr side' lbl') : side = side' ∧ lbl = lbl' := by
  have h1 := parse_kernKeyStr side hs lbl
  have h2 := parse_kernKeyStr side' hs' lbl'
  rw [h] at h1
  rw [h1] at h2
  simp only [Option.some.injEq, Prod.mk.injEq] at h2
  exact ⟨h2.1, h2.2⟩

theorem parse_isSome_iff_kern (G : String) :
    (parseKernGroup G).isSome = _is_kerning_group G := by
  unfold parseKernGroup _is_kerning_group
  by_cases h1 : strStartsWith G "public.kern1." = true
  · simp [h1]
  · simp only [Bool.not_eq_true] at h1
    by_cases h2 : strStartsWith G "public.kern2." = true
    · simp [h1, h2]
    · simp only [Bool.not_eq_true] at h2
      simp [h1, h2]

theorem kern_of_parse (G : String) (side : Nat) (lbl : String)
    (h : parseKernGroup G = some (side, lbl)) : _is_kerning_group G = true := by
  rw [← parse_isSome_iff_kern, h]
  rfl

theorem not_parse_of_not_kern (G : String) (h : _is_kerning_group G = false) :
    parseKernGroup G = none := by
  have := parse_isSome_iff_kern G
  rw [h] at this
  cases hp : parseKernGroup G with
  | none => rfl
  | some p =>
      rw [hp] at this
      cases this

theorem glyph_attr_eq_kAttr (side : Nat) (hs : side = 1 ∨ side = 2) (rtl : Bool) :
    _glyph_kerning_attr side rtl = some (kAttr side rtl) := by
  rcases hs with h | h <;> subst h <;> cases rtl <;> decide

end GlyphsGroups

namespace GlyphsGroups

/-! ### Characterization of the three steps of to_ufo_groups -/

/-- Append a value option and an appended-suffix list the way a
defaultdict(list) key evolves: no appends leave the entry untouched,
otherwise the key exists with the appends after the prior value. -/
def combine (b : Option (List String)) (l : List String) : Option (List String) :=
  if l.isEmpty then b else some (b.getD [] ++ l)

/-- Append every name of a list under one key. -/
def appendAll (G : String) (B : AL) : List String → AL
  | [] => B
  | x :: rest => appendAll G (alAppend B G x) rest

theorem appendAll_lookup_self (G : String) (B : AL) (l : List String) :
    alLookup (appendAll G B l) G = combine (alLookup B G) l := by
  induction l generalizing B with
  | nil => rfl
  | cons x rest ih =>
      rw [show appendAll G B (x :: rest) = appendAll G (alAppend B G x) rest from rfl, ih,
        alLookup_alAppend_self]
      cases rest with
      | nil => simp [combine]
      | cons r rs => simp [combine]

theorem appendAll_lookup_ne (G : String) (B : AL) (l : List String) (G' : String)
    (h : G' ≠ G) : alLookup (appendAll G B l) G' = alLookup B G' := by
  induction l generalizing B with
  | nil => rfl
  | cons x rest ih =>
      rw [show appendAll G B (x :: rest) = appendAll G (alAppend B G x) rest from rfl, ih,
        alLookup_alAppend_ne _ _ _ _ h]

theorem appendAll_keys_nodup (G : String) (B : AL) (l : List String)
    (h : (B.map Prod.fst).Nodup) : ((appendAll G B l).map Prod.fst).Nodup := by
  induction l generalizing B with
  | nil => exact h
  | cons x rest ih => exact ih _ (keys_alAppend_nodup B G x h)

/-- The value the flagged-class seeding of step 1 leaves under a key:
the split code of the last flagged class with that name, if any. -/
def step1val (classes : List GSClass) (flagged : List String) (G : String) :
    Option (List String) :=
  match classes with
  | [] => none
  | c :: rest =>
      match step1val rest flagged G with
      | some v => some v
      | none =>
          if flagged.contains c.name then
            if c.name = G then some (if c.code ≠ "" then pySplitSpace c.code else []) else none
          else none

theorem step1_cons (c : GSClass) (rest : List GSClass) (flagged : List String) (B : AL) :
    step1 (c :: rest) flagged B =
      step1 rest flagged
        (if flagged.contains c.name then
           alSet B c.name (if c.code ≠ "" then pySplitSpace c.code else [])
         else B) := rfl

theorem step1val_cons (c : GSClass) (rest : List GSClass) (flagged : List String) (G : String) :
    step1val (c :: rest) flagged G =
      match step1val rest flagged G with
      | some v => some v
      | none =>
          if flagged.contains c.name then
            if c.name = G then some (if c.code ≠ "" then pySplitSpace c.code else []) else none
          else none := rfl

theorem step1_lookup (classes : List GSClass) (flagged : List String) (B : AL) (G : String) :
    alLookup (step1 classes flagged B) G =
      match step1val classes flagged G with
      | some v => some v
      | none => alLookup B G := by
  induction classes generalizing B with
  | nil => rfl
  | cons c rest ih =>
      rw [step1_cons, ih, step1val_cons]
      cases hv : step1val rest flagged G with
      | some v => rfl
      | none =>
          show alLookup
              (if flagged.contains c.name then
                 alSet B c.name (if c.code ≠ "" then pySplitSpace c.code else [])
               else B) G =
            match
              (if flagged.contains c.name then
                 if c.name = G then some (if c.code ≠ "" then pySplitSpace c.code else [])
                 else none
               else none) with
            | some v => some v
            | none => alLookup B G
          by_cases hf : flagged.contains c.name = true
          · rw [if_pos hf, if_pos hf]
            by_cases hn : c.name = G
            · subst hn
              rw [if_pos rfl, alLookup_alSet_self]
            · rw [if_neg hn]
              exact alLookup_alSet_ne _ _ _ _ (Ne.symm hn)
          · rw [if_neg hf, if_neg hf]

theorem step1val_none (classes : List GSClass) (flagged : List String) (G : String)
    (h : ∀ c ∈ classes, flagged.contains c.name = true → c.name ≠ G) :
    step1val classes flagged G = none := by
  induction classes with
  | nil => rfl
  | cons c rest ih =>
      rw [step1val_cons, ih (fun c hc => h c (List.mem_cons_of_mem _ hc))]
      show (if flagged.contains c.name then
              if c.name = G then some (if c.code ≠ "" then pySplitSpace c.code else []) else none
            else none) = none
      by_cases hf : flagged.contains c.name = true
      · rw [if_pos hf, if_neg (h c (List.mem_cons_self _ _) hf)]
      · rw [if_neg hf]

theorem step1_keys_nodup (classes : List GSClass) (flagged : List String) (B : AL)
    (h : (B.map Prod.fst).Nodup) : ((step1 classes flagged B).map Prod.fst).Nodup := by
  induction classes generalizing B with
  | nil => exact h
  | cons c rest ih =>
      rw [show step1 (c :: rest) flagged B =
        step1 rest flagged
          (if flagged.contains c.name then
             alSet B c.name (if c.code ≠ "" then pySplitSpace c.code else [])
           else B) from rfl]
      by_cases hf : flagged.contains c.name = true
      · simp only [hf, if_true]
        exact ih _ (keys_alSet_nodup _ _ _ h)
      · simp only [Bool.not_eq_true] at hf
        simp only [hf, Bool.false_eq_true, if_false]
        exact ih _ h

end GlyphsGroups

namespace GlyphsGroups

/-! ### Characterization of step 2 (metadata replay) -/

theorem step2members_cons (font : GSFont) (G : String) (side : Nat) (N x : String)
    (rest : List String) (st : AL × List (String × Nat)) :
    step2members font G side N (x :: rest) st =
      step2members font G side N rest
        (if validOrig font side N x then (alAppend st.1 G x, st.2 ++ [(x, side)]) else st) := rfl

theorem step2members_eq (font : GSFont) (G : String) (side : Nat) (N : String)
    (xs : List String) (st : AL × List (String × Nat)) :
    step2members font G side N xs st =
      (appendAll G st.1 (xs.filter (fun x => validOrig font side N x)),
       st.2 ++ (xs.filter (fun x => validOrig font side N x)).map (fun x => (x, side))) := by
  induction xs generalizing st with
  | nil =>
      obtain ⟨B, r⟩ := st
      simp [step2members, appendAll]
  | cons x rest ih =>
      rw [step2members_cons]
      by_cases hv : validOrig font side N x = true
      · rw [if_pos hv, ih, List.filter_cons_of_pos (by exact hv)]
        rw [show appendAll G st.1 (x :: List.filter (fun x => validOrig font side N x) rest) =
          appendAll G (alAppend st.1 G x) (List.filter (fun x => validOrig font side N x) rest)
          from rfl]
        simp [List.append_assoc]
      · rw [if_neg hv, ih, List.filter_cons_of_neg (by simpa using hv)]

theorem step2_nil (font : GSFont) (st : AL × List (String × Nat)) :
    step2 font [] st = .ok st := rfl

theorem step2_cons_empty (font : GSFont) (G : String) (rest : AL)
    (st : AL × List (String × Nat)) :
    step2 font ((G, []) :: rest) st = step2 font rest (alSet st.1 G [], st.2) := rfl

theorem step2_cons_nonempty (font : GSFont) (G x : String) (xs : List String) (rest : AL)
    (st : AL × List (String × Nat)) :
    step2 font ((G, x :: xs) :: rest) st =
      match parseKernGroup G with
      | none => .error ("unrecognized group name in stored kerning groups: " ++ G)
      | some (side, group_name) =>
          step2 font rest (step2members font G side group_name (x :: xs) st) := rfl

theorem step2_ok (font : GSFont) (md : AL) (st : AL × List (String × Nat))
    (h : ∀ p ∈ md, p.2 ≠ [] → (parseKernGroup p.1).isSome = true) :
    ∃ out, step2 font md st = .ok out := by
  induction md generalizing st with
  | nil => exact ⟨st, rfl⟩
  | cons p rest ih =>
      obtain ⟨G, glyphs⟩ := p
      cases glyphs with
      | nil =>
          rw [step2_cons_empty]
          exact ih _ (fun q hq hne => h q (List.mem_cons_of_mem _ hq) hne)
      | cons x xs =>
          have hs := h (G, x :: xs) (List.mem_cons_self _ _) (by simp)
          cases hp : parseKernGroup G with
          | none =>
              rw [hp] at hs
              simp at hs
          | some p2 =>
              obtain ⟨side, N⟩ := p2
              rw [step2_cons_nonempty, hp]
              exact ih _ (fun q hq hne => h q (List.mem_cons_of_mem _ hq) hne)

theorem step2_frame (font : GSFont) (md : AL) (st : AL × List (String × Nat))
    (out : AL × List (String × Nat)) (G : String) (hok : step2 font md st = .ok out)
    (hG : ¬ G ∈ md.map Prod.fst) : alLookup out.1 G = alLookup st.1 G := by
  induction md generalizing st with
  | nil =>
      rw [step2_nil] at hok
      cases hok
      rfl
  | cons p rest ih =>
      obtain ⟨G', glyphs⟩ := p
      simp only [List.map_cons, List.mem_cons] at hG
      push_neg at hG
      cases glyphs with
      | nil =>
          rw [step2_cons_empty] at hok
          rw [ih _ hok hG.2]
          exact alLookup_alSet_ne _ _ _ _ hG.1
      | cons x xs =>
          cases hp : parseKernGroup G' with
          | none =>
              rw [step2_cons_nonempty, hp] at hok
              exact Except.noConfusion hok
          | some p2 =>
              obtain ⟨side, N⟩ := p2
              rw [step2_cons_nonempty, hp] at hok
              rw [ih _ hok hG.2, step2members_eq]
              exact appendAll_lookup_ne _ _ _ _ hG.1

theorem step2_rec_mono (font : GSFont) (md : AL) (st out : AL × List (String × Nat))
    (hok : step2 font md st = .ok out) : ∀ q ∈ st.2, q ∈ out.2 := by
  induction md generalizing st with
  | nil =>
      rw [step2_nil] at hok
      cases hok
      exact fun q hq => hq
  | cons p rest ih =>
      obtain ⟨G', glyphs⟩ := p
      cases glyphs with
      | nil =>
          rw [step2_cons_empty] at hok
          intro q hq
          exact ih _ hok q hq
      | cons x xs =>
          cases hp : parseKernGroup G' with
          | none =>
              rw [step2_cons_nonempty, hp] at hok
              exact Except.noConfusion hok
          | some p2 =>
              obtain ⟨side, N⟩ := p2
              rw [step2_cons_nonempty, hp] at hok
              intro q hq
              refine ih _ hok q ?_
              rw [step2members_eq]
              exact List.mem_append_left _ hq

theorem step2_at_empty (font : GSFont) (md : AL) (st out : AL × List (String × Nat))
    (G : String) (hok : step2 font md st = .ok out) (hnd : (md.map Prod.fst).Nodup)
    (hmem : (G, ([] : List String)) ∈ md) : alLookup out.1 G = some [] := by
  induction md generalizing st with
  | nil => simp at hmem
  | cons p rest ih =>
      obtain ⟨G', glyphs⟩ := p
      simp only [List.map_cons, List.nodup_cons] at hnd
      rcases List.mem_cons.mp hmem with he | hm
      · rw [Prod.mk.injEq] at he
        obtain ⟨hG, hgl⟩ := he
        subst hG
        rw [← hgl] at hok
        rw [step2_cons_empty] at hok
        rw [step2_frame font rest _ out G hok hnd.1]
        exact alLookup_alSet_self _ _ _
      · cases glyphs with
        | nil =>
            rw [step2_cons_empty] at hok
            exact ih _ hok hnd.2 hm
        | cons x xs =>
            cases hp : parseKernGroup G' with
            | none =>
                rw [step2_cons_nonempty, hp] at hok
                exact Except.noConfusion hok
            | some p2 =>
                obtain ⟨side, N⟩ := p2
                rw [step2_cons_nonempty, hp] at hok
                exact ih _ hok hnd.2 hm

theorem step2_at_nonempty (font : GSFont) (md : AL) (st out : AL × List (String × Nat))
    (G : String) (side : Nat) (N : String) (L : List String)
    (hok : step2 font md st = .ok out) (hnd : (md.map Prod.fst).Nodup)
    (hmem : (G, L) ∈ md) (hL : L ≠ []) (hp : parseKernGroup G = some (side, N)) :
    alLookup out.1 G =
      combine (alLookup st.1 G) (L.filter (fun x => validOrig font side N x)) := by
  induction md generalizing st with
  | nil => simp at hmem
  | cons p rest ih =>
      obtain ⟨G', glyphs⟩ := p
      simp only [List.map_cons, List.nodup_cons] at hnd
      rcases List.mem_cons.mp hmem with he | hm
      · rw [Prod.mk.injEq] at he
        obtain ⟨hG, hgl⟩ := he
        subst hG
        cases L with
        | nil => exact absurd rfl hL
        | cons x xs =>
            rw [← hgl, step2_cons_nonempty, hp] at hok
            rw [step2_frame font rest _ out G hok hnd.1, step2members_eq]
            exact appendAll_lookup_self _ _ _
      · have hGrest : G ∈ rest.map Prod.fst := List.mem_map.mpr ⟨(G, L), hm, rfl⟩
        have hne : G' ≠ G := fun he => hnd.1 (he ▸ hGrest)
        cases glyphs with
        | nil =>
            rw [step2_cons_empty] at hok
            rw [ih _ hok hnd.2 hm]
            rw [alLookup_alSet_ne _ _ _ _ hne.symm]
        | cons x xs =>
            cases hp' : parseKernGroup G' with
            | none =>
                rw [step2_cons_nonempty, hp'] at hok
                exact Except.noConfusion hok
            | some p2 =>
                obtain ⟨side', N'⟩ := p2
                rw [step2_cons_nonempty, hp'] at hok
                rw [ih _ hok hnd.2 hm, step2members_eq]
                rw [appendAll_lookup_ne _ _ _ _ hne.symm]

theorem step2_rec_complete (font : GSFont) (md : AL) (st out : AL × List (String × Nat))
    (G : String) (side : Nat) (N : String) (L : List String) (x : String)
    (hok : step2 font md st = .ok out) (hmem : (G, L) ∈ md)
    (hp : parseKernGroup G = some (side, N)) (hx : x ∈ L)
    (hv : validOrig font side N x = true) : (x, side) ∈ out.2 := by
  induction md generalizing st with
  | nil => simp at hmem
  | cons p rest ih =>
      obtain ⟨G', glyphs⟩ := p
      rcases List.mem_cons.mp hmem with he | hm
      · rw [Prod.mk.injEq] at he
        obtain ⟨hG, hgl⟩ := he
        subst hG
        cases L with
        | nil => simp at hx
        | cons y ys =>
            rw [← hgl, step2_cons_nonempty, hp] at hok
            refine step2_rec_mono font rest _ out hok (x, side) ?_
            rw [step2members_eq]
            refine List.mem_append_right _ ?_
            exact List.mem_map.mpr ⟨x, List.mem_filter.mpr ⟨hx, hv⟩, rfl⟩
      · cases glyphs with
        | nil =>
            rw [step2_cons_empty] at hok
            exact ih _ hok hm
        | cons y ys =>
            cases hp' : parseKernGroup G' with
            | none =>
                rw [step2_cons_nonempty, hp'] at hok
                exact Except.noConfusion hok
            | some p2 =>
                obtain ⟨side', N'⟩ := p2
                rw [step2_cons_nonempty, hp'] at hok
                exact ih _ hok hm

theorem step2_rec_sound (font : GSFont) (md : AL) (st out : AL × List (String × Nat))
    (x : String) (s : Nat) (hok : step2 font md st = .ok out) (hmem : (x, s) ∈ out.2) :
    (x, s) ∈ st.2 ∨ ∃ G L N, (G, L) ∈ md ∧ parseKernGroup G = some (s, N) ∧ x ∈ L ∧
      validOrig font s N x = true := by
  induction md generalizing st with
  | nil =>
      rw [step2_nil] at hok
      cases hok
      exact Or.inl hmem
  | cons p rest ih =>
      obtain ⟨G', glyphs⟩ := p
      cases glyphs with
      | nil =>
          rw [step2_cons_empty] at hok
          rcases ih _ hok with h | ⟨G, L, N, hGL, hps, hxL, hval⟩
          · exact Or.inl h
          · exact Or.inr ⟨G, L, N, List.mem_cons_of_mem _ hGL, hps, hxL, hval⟩
      | cons y ys =>
          cases hp' : parseKernGroup G' with
          | none =>
              rw [step2_cons_nonempty, hp'] at hok
              exact Except.noConfusion hok
          | some p2 =>
              obtain ⟨side', N'⟩ := p2
              rw [step2_cons_nonempty, hp'] at hok
              rcases ih _ hok with h | ⟨G, L, N, hGL, hps, hxL, hval⟩
              · rw [step2members_eq] at h
                rcases List.mem_append.mp h with h | h
                · exact Or.inl h
                · obtain ⟨z, hz, hze⟩ := List.mem_map.mp h
                  rw [Prod.mk.injEq] at hze
                  obtain ⟨hzx, hzs⟩ := hze
                  subst hzx
                  subst hzs
                  obtain ⟨hzy, hzv⟩ := List.mem_filter.mp hz
                  exact Or.inr ⟨G', y :: ys, N', List.mem_cons_self _ _, hp', hzy, hzv⟩
              · exact Or.inr ⟨G, L, N, List.mem_cons_of_mem _ hGL, hps, hxL, hval⟩

theorem step2_keys_nodup (font : GSFont) (md : AL) (st out : AL × List (String × Nat))
    (hok : step2 font md st = .ok out) (h : (st.1.map Prod.fst).Nodup) :
    (out.1.map Prod.fst).Nodup := by
  induction md generalizing st with
  | nil =>
      rw [step2_nil] at hok
      cases hok
      exact h
  | cons p rest ih =>
      obtain ⟨G', glyphs⟩ := p
      cases glyphs with
      | nil =>
          rw [step2_cons_empty] at hok
          exact ih _ hok (keys_alSet_nodup _ _ _ h)
      | cons y ys =>
          cases hp' : parseKernGroup G' with
          | none =>
              rw [step2_cons_nonempty, hp'] at hok
              exact Except.noConfusion hok
          | some p2 =>
              obtain ⟨side', N'⟩ := p2
              rw [step2_cons_nonempty, hp'] at hok
              refine ih _ hok ?_
              rw [step2members_eq]
              exact appendAll_keys_nodup _ _ _ h

end GlyphsGroups

namespace GlyphsGroups

/-! ### Characterization of step 3 (new grouping values) -/

/-- The label one glyph appends under for one side in step 3, if any. -/
def side3app (g : GSGlyph) (is_rtl : Bool) (side : Nat)
    (rec : List (String × Nat)) : Option String :=
  if rec.contains (g.name, side) then none
  else
    match g.getAttr (kAttr side is_rtl) with
    | none => none
    | some lbl => if lbl = "" then none else some lbl

theorem combine_assoc (b : Option (List String)) (l1 l2 : List String) :
    combine (combine b l1) l2 = combine b (l1 ++ l2) := by
  cases l1 with
  | nil => cases l2 <;> simp [combine]
  | cons a as =>
      cases l2 with
      | nil => simp [combine]
      | cons c cs => simp [combine, List.append_assoc]

theorem step3side_eq (g : GSGlyph) (is_rtl : Bool) (side : Nat) (hs : side = 1 ∨ side = 2)
    (rec : List (String × Nat)) (B : AL) :
    step3side g is_rtl side rec B =
      match side3app g is_rtl side rec with
      | none => B
      | some lbl => alAppend B (kernKeyStr side lbl) g.name := by
  unfold step3side side3app
  rw [glyph_attr_eq_kAttr side hs is_rtl]
  by_cases hr : rec.contains (g.name, side) = true
  · rw [if_pos hr, if_pos hr]
  · rw [if_neg hr, if_neg hr]
    show (match g.getAttr (kAttr side is_rtl) with
          | none => B
          | some lbl => if lbl = "" then B else alAppend B (kernKeyStr side lbl) g.name) =
      match (match g.getAttr (kAttr side is_rtl) with
             | none => none
             | some lbl => if lbl = "" then none else some lbl) with
      | none => B
      | some lbl => alAppend B (kernKeyStr side lbl) g.name
    cases g.getAttr (kAttr side is_rtl) with
    | none => rfl
    | some lbl =>
        show (if lbl = "" then B else alAppend B (kernKeyStr side lbl) g.name) =
          match (if lbl = "" then none else some lbl) with
          | none => B
          | some lbl => alAppend B (kernKeyStr side lbl) g.name
        by_cases hl : lbl = ""
        · rw [if_pos hl, if_pos hl]
        · rw [if_neg hl, if_neg hl]

theorem step3side_lookup_kern (g : GSGlyph) (is_rtl : Bool) (side : Nat)
    (rec : List (String × Nat)) (B : AL) (side' : Nat) (lbl' : String)
    (hs : side = 1 ∨ side = 2) (hs' : side' = 1 ∨ side' = 2) :
    alLookup (step3side g is_rtl side rec B) (kernKeyStr side' lbl') =
      if side' = side ∧ side3app g is_rtl side rec = some lbl'
      then some ((alLookup B (kernKeyStr side' lbl')).getD [] ++ [g.name])
      else alLookup B (kernKeyStr side' lbl') := by
  rw [step3side_eq g is_rtl side hs rec B]
  cases ha : side3app g is_rtl side rec with
  | none =>
      rw [if_neg (by rintro ⟨h1, h2⟩; cases h2)]
  | some lbl =>
      by_cases hk : kernKeyStr side' lbl' = kernKeyStr side lbl
      · obtain ⟨hseq, hleq⟩ := kernKeyStr_inj side' side hs' hs lbl' lbl hk
        rw [hk, alLookup_alAppend_self, if_pos ⟨hseq, by rw [hleq]⟩, ← hk]
      · rw [alLookup_alAppend_ne _ _ _ _ hk,
          if_neg (by
            rintro ⟨h1, h2⟩
            injection h2 with h2
            exact hk (by rw [h1, h2]))]

theorem step3side_lookup_other (g : GSGlyph) (is_rtl : Bool) (side : Nat)
    (rec : List (String × Nat)) (B : AL) (G : String)
    (hs : side = 1 ∨ side = 2) (hG : parseKernGroup G = none) :
    alLookup (step3side g is_rtl side rec B) G = alLookup B G := by
  rw [step3side_eq g is_rtl side hs rec B]
  cases ha : side3app g is_rtl side rec with
  | none => rfl
  | some lbl =>
      refine alLookup_alAppend_ne _ _ _ _ ?_
      intro he
      rw [he, parse_kernKeyStr side hs lbl] at hG
      cases hG

/-- Whether step 3 appends this glyph under a given side and label. -/
def step3pred (rtl : List String) (rec : List (String × Nat)) (side : Nat) (lbl : String)
    (g : GSGlyph) : Bool :=
  side3app g (rtl.contains g.name) side rec == some lbl

/-- All names step 3 appends under a given side and label, in glyph order. -/
def step3adds (glyphs : List GSGlyph) (rtl : List String) (rec : List (String × Nat))
    (side : Nat) (lbl : String) : List String :=
  (glyphs.filter (step3pred rtl rec side lbl)).map (fun g => g.name)

theorem step3adds_cons (g : GSGlyph) (rest : List GSGlyph) (rtl : List String)
    (rec : List (String × Nat)) (side : Nat) (lbl : String) :
    step3adds (g :: rest) rtl rec side lbl =
      (if step3pred rtl rec side lbl g then [g.name] else []) ++
        step3adds rest rtl rec side lbl := by
  by_cases hp : step3pred rtl rec side lbl g = true
  · simp [step3adds, List.filter_cons_of_pos, hp]
  · simp only [step3adds, List.filter_cons_of_neg (by simpa using hp), if_neg hp,
      List.nil_append]

theorem step3_cons (g : GSGlyph) (rest : List GSGlyph) (rtl : List String)
    (rec : List (String × Nat)) (B : AL) :
    step3 (g :: rest) rtl rec B =
      step3 rest rtl rec
        (step3side g (rtl.contains g.name) 2 rec
          (step3side g (rtl.contains g.name) 1 rec B)) := rfl

theorem step3glyph_lookup_kern (g : GSGlyph) (rtl : List String)
    (rec : List (String × Nat)) (B : AL) (side : Nat) (lbl : String)
    (hs : side = 1 ∨ side = 2) :
    alLookup (step3side g (rtl.contains g.name) 2 rec
        (step3side g (rtl.contains g.name) 1 rec B)) (kernKeyStr side lbl) =
      combine (alLookup B (kernKeyStr side lbl))
        (if step3pred rtl rec side lbl g then [g.name] else []) := by
  rcases hs with h | h <;> subst h
  · rw [step3side_lookup_kern g _ 2 rec _ 1 lbl (Or.inr rfl) (Or.inl rfl),
      if_neg (by rintro ⟨h1, _⟩; exact absurd h1 (by decide))]
    rw [step3side_lookup_kern g _ 1 rec B 1 lbl (Or.inl rfl) (Or.inl rfl)]
    by_cases hp : side3app g (rtl.contains g.name) 1 rec = some lbl
    · rw [if_pos ⟨rfl, hp⟩]
      have hpb : step3pred rtl rec 1 lbl g = true := by
        show (side3app g (rtl.contains g.name) 1 rec == some lbl) = true
        rw [hp]
        exact beq_self_eq_true _
      rw [if_pos hpb]
      simp [combine]
    · have hpb : ¬ (step3pred rtl rec 1 lbl g = true) := by
        show ¬ ((side3app g (rtl.contains g.name) 1 rec == some lbl) = true)
        simpa using hp
      rw [if_neg (by rintro ⟨_, h2⟩; exact hp h2), if_neg hpb]
      simp [combine]
  · have h1 : alLookup (step3side g (rtl.contains g.name) 1 rec B) (kernKeyStr 2 lbl) =
        alLookup B (kernKeyStr 2 lbl) := by
      rw [step3side_lookup_kern g _ 1 rec B 2 lbl (Or.inl rfl) (Or.inr rfl)]
      rw [if_neg (by rintro ⟨hc, _⟩; exact absurd hc (by decide))]
    rw [step3side_lookup_kern g _ 2 rec _ 2 lbl (Or.inr rfl) (Or.inr rfl), h1]
    by_cases hp : side3app g (rtl.contains g.name) 2 rec = some lbl
    · rw [if_pos ⟨rfl, hp⟩]
      have hpb : step3pred rtl rec 2 lbl g = true := by
        show (side3app g (rtl.contains g.name) 2 rec == some lbl) = true
        rw [hp]
        exact beq_self_eq_true _
      rw [if_pos hpb]
      simp [combine]
    · have hpb : ¬ (step3pred rtl rec 2 lbl g = true) := by
        show ¬ ((side3app g (rtl.contains g.name) 2 rec == some lbl) = true)
        simpa using hp
      rw [if_neg (by rintro ⟨_, h2⟩; exact hp h2), if_neg hpb]
      simp [combine]

theorem step3_lookup_kern (glyphs : List GSGlyph) (rtl : List String)
    (rec : List (String × Nat)) (B : AL) (side : Nat) (lbl : String)
    (hs : side = 1 ∨ side = 2) :
    alLookup (step3 glyphs rtl rec B) (kernKeyStr side lbl) =
      combine (alLookup B (kernKeyStr side lbl)) (step3adds glyphs rtl rec side lbl) := by
  induction glyphs generalizing B with
  | nil => simp [step3, step3adds, combine]
  | cons g rest ih =>
      rw [step3_cons, ih, step3glyph_lookup_kern g rtl rec B side lbl hs, combine_assoc,
        step3adds_cons]

theorem step3_lookup_other (glyphs : List GSGlyph) (rtl : List String)
    (rec : List (String × Nat)) (B : AL) (G : String) (hG : parseKernGroup G = none) :
    alLookup (step3 glyphs rtl rec B) G = alLookup B G := by
  induction glyphs generalizing B with
  | nil => rfl
  | cons g rest ih =>
      rw [step3_cons, ih, step3side_lookup_other _ _ 2 _ _ _ (Or.inr rfl) hG,
        step3side_lookup_other _ _ 1 _ _ _ (Or.inl rfl) hG]

theorem step3_keys_nodup (glyphs : List GSGlyph) (rtl : List String)
    (rec : List (String × Nat)) (B : AL) (h : (B.map Prod.fst).Nodup) :
    ((step3 glyphs rtl rec B).map Prod.fst).Nodup := by
  induction glyphs generalizing B with
  | nil => exact h
  | cons g rest ih =>
      rw [step3_cons]
      refine ih _ ?_
      have h1 : ((step3side g (rtl.contains g.name) 1 rec B).map Prod.fst).Nodup := by
        rw [step3side_eq g _ 1 (Or.inl rfl) rec B]
        cases side3app g (rtl.contains g.name) 1 rec with
        | none => exact h
        | some lbl => exact keys_alAppend_nodup _ _ _ h
      rw [step3side_eq g _ 2 (Or.inr rfl) rec _]
      cases side3app g (rtl.contains g.name) 2 rec with
      | none => exact h1
      | some lbl => exact keys_alAppend_nodup _ _ _ h1

end GlyphsGroups

namespace GlyphsGroups

/-! ### buildGroups decomposition -/

theorem rtl_empty_ok (font : GSFont) (h : font.kerningRTL = []) :
    _get_glyphs_with_rtl_kerning font = .ok [] := by
  unfold _get_glyphs_with_rtl_kerning
  rw [h]
  rfl

theorem buildGroups_eq (font : GSFont) (st : AL × List (String × Nat)) (rtl : List String)
    (h2 : step2 font (font.userDataOrigGroups.getD [])
      (step1 font.classes (font.userDataGroupsNotInFeature.getD []) [], []) = .ok st)
    (hr : _get_glyphs_with_rtl_kerning font = .ok rtl) :
    buildGroups font = .ok (step3 font.glyphs rtl st.2 st.1) := by
  unfold buildGroups
  show (do
    let st ← step2 font (font.userDataOrigGroups.getD [])
      (step1 font.classes (font.userDataGroupsNotInFeature.getD []) [], [])
    let rtl ← _get_glyphs_with_rtl_kerning font
    Except.ok (step3 font.glyphs rtl st.2 st.1)) = Except.ok (step3 font.glyphs rtl st.2 st.1)
  rw [h2, hr]
  exact rfl

theorem buildGroups_ok_inv (font : GSFont) (T : AL) (hT : buildGroups font = .ok T) :
    ∃ st rtl,
      step2 font (font.userDataOrigGroups.getD [])
        (step1 font.classes (font.userDataGroupsNotInFeature.getD []) [], []) = .ok st ∧
      _get_glyphs_with_rtl_kerning font = .ok rtl ∧
      T = step3 font.glyphs rtl st.2 st.1 := by
  have hT' : (do
      let st ← step2 font (font.userDataOrigGroups.getD [])
        (step1 font.classes (font.userDataGroupsNotInFeature.getD []) [], [])
      let rtl ← _get_glyphs_with_rtl_kerning font
      Except.ok (step3 font.glyphs rtl st.2 st.1) : Except String AL) = Except.ok T := hT
  cases h2 : step2 font (font.userDataOrigGroups.getD [])
      (step1 font.classes (font.userDataGroupsNotInFeature.getD []) [], []) with
  | error e =>
      rw [h2] at hT'
      exact Except.noConfusion (show (Except.error e : Except String AL) = Except.ok T from hT')
  | ok st =>
      rw [h2] at hT'
      cases hr : _get_glyphs_with_rtl_kerning font with
      | error e =>
          rw [hr] at hT'
          exact Except.noConfusion
            (show (Except.error e : Except String AL) = Except.ok T from hT')
      | ok rtl =>
          rw [hr] at hT'
          have hT'' : Except.ok (step3 font.glyphs rtl st.2 st.1) = Except.ok T := hT'
          injection hT'' with hTe
          exact ⟨st, rtl, rfl, rfl, hTe.symm⟩

theorem step2_ok_parse (font : GSFont) (md : AL) (st out : AL × List (String × Nat))
    (hok : step2 font md st = .ok out) :
    ∀ p ∈ md, p.2 ≠ [] → (parseKernGroup p.1).isSome = true := by
  induction md generalizing st with
  | nil => simp
  | cons p rest ih =>
      obtain ⟨G', glyphs⟩ := p
      intro q hq hne
      cases glyphs with
      | nil =>
          rw [step2_cons_empty] at hok
          rcases List.mem_cons.mp hq with he | hm
          · subst he
            exact absurd rfl hne
          · exact ih _ hok q hm hne
      | cons y ys =>
          cases hp' : parseKernGroup G' with
          | none =>
              rw [step2_cons_nonempty, hp'] at hok
              exact Except.noConfusion hok
          | some p2 =>
              obtain ⟨side', N'⟩ := p2
              rw [step2_cons_nonempty, hp'] at hok
              rcases List.mem_cons.mp hq with he | hm
              · subst he
                rw [hp']
                rfl
              · exact ih _ hok q hm hne

theorem side3app_eq_some (g : GSGlyph) (is_rtl : Bool) (side : Nat)
    (rec : List (String × Nat)) (lbl : String)
    (h : side3app g is_rtl side rec = some lbl) :
    rec.contains (g.name, side) = false ∧ g.getAttr (kAttr side is_rtl) = some lbl ∧
      lbl ≠ "" := by
  unfold side3app at h
  by_cases hr : rec.contains (g.name, side) = true
  · rw [if_pos hr] at h
    cases h
  · rw [if_neg hr] at h
    cases hA : g.getAttr (kAttr side is_rtl) with
    | none =>
        rw [hA] at h
        cases h
    | some l =>
        rw [hA] at h
        have h' : (if l = "" then none else some l) = some lbl := h
        by_cases hl : l = ""
        · rw [if_pos hl] at h'
          cases h'
        · rw [if_neg hl] at h'
          injection h' with h'
          subst h'
          exact ⟨Bool.eq_false_iff.mpr hr, rfl, hl⟩

theorem side3app_some_of (g : GSGlyph) (is_rtl : Bool) (side : Nat)
    (rec : List (String × Nat)) (lbl : String)
    (hr : rec.contains (g.name, side) = false)
    (hA : g.getAttr (kAttr side is_rtl) = some lbl) (hl : lbl ≠ "") :
    side3app g is_rtl side rec = some lbl := by
  unfold side3app
  rw [if_neg (by rw [hr]; exact Bool.false_ne_true), hA]
  show (if lbl = "" then none else some lbl) = some lbl
  rw [if_neg hl]

theorem step3pred_iff (rtl : List String) (rec : List (String × Nat)) (side : Nat)
    (lbl : String) (g : GSGlyph) :
    step3pred rtl rec side lbl g = true ↔
      side3app g (rtl.contains g.name) side rec = some lbl := by
  unfold step3pred
  rw [beq_iff_eq]

theorem combine_getD (b : Option (List String)) (l : List String) :
    (combine b l).getD [] = b.getD [] ++ l := by
  cases l <;> simp [combine]

theorem foldl_alSet_frame (table : AL) (init : AL) (G : String)
    (hG : ¬ G ∈ table.map Prod.fst) :
    alLookup (table.foldl (fun gs p => alSet gs p.1 p.2) init) G = alLookup init G := by
  induction table generalizing init with
  | nil => rfl
  | cons p rest ih =>
      obtain ⟨k, v⟩ := p
      simp only [List.map_cons, List.mem_cons] at hG
      push_neg at hG
      rw [List.foldl_cons, ih _ hG.2]
      exact alLookup_alSet_ne _ _ _ _ hG.1

theorem foldl_alSet_lookup (table : AL) (init : AL) (G : String) (v : List String)
    (hnd : (table.map Prod.fst).Nodup) (h : alLookup table G = some v) :
    alLookup (table.foldl (fun gs p => alSet gs p.1 p.2) init) G = some v := by
  induction table generalizing init with
  | nil => simp [alLookup_nil] at h
  | cons p rest ih =>
      obtain ⟨k, w⟩ := p
      simp only [List.map_cons, List.nodup_cons] at hnd
      rw [alLookup_cons] at h
      by_cases he : k = G
      · rw [if_pos he] at h
        injection h with h
        subst h
        subst he
        rw [List.foldl_cons, foldl_alSet_frame rest _ k (by
          intro hc
          exact hnd.1 hc)]
        exact alLookup_alSet_self _ _ _
      · rw [if_neg he] at h
        rw [List.foldl_cons]
        exact ih _ hnd.2 h

theorem buildGroups_keys_nodup (font : GSFont) (T : AL) (hT : buildGroups font = .ok T) :
    (T.map Prod.fst).Nodup := by
  obtain ⟨st, rtl, h2, hr, hTe⟩ := buildGroups_ok_inv font T hT
  subst hTe
  refine step3_keys_nodup _ _ _ _ ?_
  refine step2_keys_nodup font _ _ st h2 ?_
  exact step1_keys_nodup _ _ _ (by simp)

end GlyphsGroups

namespace GlyphsGroups

/-! ### C2: RTL side flip -/

/-- C2 counterexample: in this font the glyph g is referenced in the RTL
table only through the inner-subtable key MMK L A (via its
rightKerningGroup label A), yet to_ufo_groups places it in the side-2
group public.kern2.A and in no side-1 group, contradicting the claim
that an inner-key (right-side key) reference yields a side-1 group. -/
theorem c2_rtl_side_counterexample :
    buildGroups ⟨[⟨"g", none, some "A"⟩], [⟨"m", none⟩],
        [("m", [("x", [("@MMK_L_A", 0)])])], [], none, none⟩ =
      .ok [("public.kern2.A", ["g"])] ∧
    _get_glyphs_with_rtl_kerning ⟨[⟨"g", none, some "A"⟩], [⟨"m", none⟩],
        [("m", [("x", [("@MMK_L_A", 0)])])], [], none, none⟩ = .ok ["x", "g"] ∧
    strStartsWith "public.kern2.A" "public.kern2." = true ∧
    strStartsWith "public.kern2.A" "public.kern1." = false :=
  ⟨rfl, rfl, rfl, rfl⟩

/-- C2 (amended): a glyph that participates in RTL kerning (for example
because it is referenced through an inner-subtable key) has its sides
flipped by to_ufo_groups: its rightKerningGroup label puts it in the
side-2 group public.kern2.label (and, when its other attribute is
empty, in no side-1 group), and symmetrically its leftKerningGroup label
puts it in the side-1 group and no side-2 group. -/
theorem c2_rtl_side_flip (font : GSFont) (g : GSGlyph) (T : AL) (R : List String)
    (hmd : font.userDataOrigGroups = none)
    (hflag : font.userDataGroupsNotInFeature = none)
    (hnd : (font.glyphs.map GSGlyph.name).Nodup)
    (hg : g ∈ font.glyphs)
    (hR : _get_glyphs_with_rtl_kerning font = .ok R)
    (hgR : R.contains g.name = true)
    (hT : buildGroups font = .ok T) :
    (∀ N, g.rightKerningGroup = some N → N ≠ "" → g.leftKerningGroup = none →
      g.name ∈ (alLookup T (kernKeyStr 2 N)).getD [] ∧
      ∀ G lbl, parseKernGroup G = some (1, lbl) → ¬ g.name ∈ (alLookup T G).getD []) ∧
    (∀ N, g.leftKerningGroup = some N → N ≠ "" → g.rightKerningGroup = none →
      g.name ∈ (alLookup T (kernKeyStr 1 N)).getD [] ∧
      ∀ G lbl, parseKernGroup G = some (2, lbl) → ¬ g.name ∈ (alLookup T G).getD []) := by
  obtain ⟨st, rtl, h2, hr, hTe⟩ := buildGroups_ok_inv font T hT
  rw [hR] at hr
  injection hr with hr
  subst hr
  rw [hmd] at h2
  simp only [Option.getD_none] at h2
  rw [step2_nil] at h2
  injection h2 with h2
  subst hTe
  rw [← h2]
  have hB1 : ∀ G : String,
      alLookup (step1 font.classes (font.userDataGroupsNotInFeature.getD []) []) G = none := by
    intro G
    rw [step1_lookup, step1val_none _ _ _ ?hc]
    case hc =>
      intro c hc hcon
      rw [hflag] at hcon
      simp at hcon
    rfl
  have hinj := List.inj_on_of_nodup_map hnd
  constructor
  · intro N hright hNe hleft
    have happ : side3app g (R.contains g.name) 2 [] = some N := by
      refine side3app_some_of g _ 2 [] N rfl ?_ hNe
      rw [hgR]
      exact hright
    constructor
    · rw [step3_lookup_kern _ _ _ _ 2 N (Or.inr rfl), hB1, combine_getD]
      simp only [Option.getD_none, List.nil_append, step3adds]
      refine List.mem_map.mpr ⟨g, List.mem_filter.mpr ⟨hg, (step3pred_iff _ _ _ _ _).mpr happ⟩,
        rfl⟩
    · intro G lbl hpG hmem
      obtain ⟨hGe, _⟩ := parseKernGroup_inj G 1 lbl hpG
      subst hGe
      rw [step3_lookup_kern _ _ _ _ 1 lbl (Or.inl rfl), hB1, combine_getD] at hmem
      simp only [Option.getD_none, List.nil_append, step3adds] at hmem
      obtain ⟨g', hg', hge⟩ := List.mem_map.mp hmem
      have hgmem := List.mem_filter.mp hg'
      have happ2 : side3app g' (R.contains g'.name) 1 [] = some lbl :=
        (step3pred_iff _ _ _ _ _).mp hgmem.2
      have hgg : g' = g := hinj hgmem.1 hg hge
      subst hgg
      rw [hgR] at happ2
      have := (side3app_eq_some g' true 1 [] lbl happ2).2.1
      rw [show kAttr 1 true = KerningAttr.leftKerningGroup from rfl,
        show g'.getAttr KerningAttr.leftKerningGroup = g'.leftKerningGroup from rfl,
        hleft] at this
      exact Option.noConfusion this
  · intro N hleft hNe hright
    have happ : side3app g (R.contains g.name) 1 [] = some N := by
      refine side3app_some_of g _ 1 [] N rfl ?_ hNe
      rw [hgR]
      exact hleft
    constructor
    · rw [step3_lookup_kern _ _ _ _ 1 N (Or.inl rfl), hB1, combine_getD]
      simp only [Option.getD_none, List.nil_append, step3adds]
      refine List.mem_map.mpr ⟨g, List.mem_filter.mpr ⟨hg, (step3pred_iff _ _ _ _ _).mpr happ⟩,
        rfl⟩
    · intro G lbl hpG hmem
      obtain ⟨hGe, _⟩ := parseKernGroup_inj G 2 lbl hpG
      subst hGe
      rw [step3_lookup_kern _ _ _ _ 2 lbl (Or.inr rfl), hB1, combine_getD] at hmem
      simp only [Option.getD_none, List.nil_append, step3adds] at hmem
      obtain ⟨g', hg', hge⟩ := List.mem_map.mp hmem
      have hgmem := List.mem_filter.mp hg'
      have happ2 : side3app g' (R.contains g'.name) 2 [] = some lbl :=
        (step3pred_iff _ _ _ _ _).mp hgmem.2
      have hgg : g' = g := hinj hgmem.1 hg hge
      subst hgg
      rw [hgR] at happ2
      have := (side3app_eq_some g' true 2 [] lbl happ2).2.1
      rw [show kAttr 2 true = KerningAttr.rightKerningGroup from rfl,
        show g'.getAttr KerningAttr.rightKerningGroup = g'.rightKerningGroup from rfl,
        hright] at this
      exact Option.noConfusion this

/-- Witness for the amended C2 at the counterexample font: g ends up in
public.kern2.A and not in public.kern1.A. -/
theorem c2_rtl_side_flip_witness :
    "g" ∈ (alLookup [("public.kern2.A", ["g"])] (kernKeyStr 2 "A")).getD [] ∧
    ¬ "g" ∈ (alLookup [("public.kern2.A", ["g"])] (kernKeyStr 1 "A")).getD [] := by
  have h := c2_rtl_side_flip ⟨[⟨"g", none, some "A"⟩], [⟨"m", none⟩],
      [("m", [("x", [("@MMK_L_A", 0)])])], [], none, none⟩ ⟨"g", none, some "A"⟩
      [("public.kern2.A", ["g"])] ["x", "g"] rfl rfl (by decide)
      (List.mem_cons_self _ _) rfl (by decide) rfl
  exact ⟨(h.1 "A" rfl (by decide) rfl).1,
    (h.1 "A" rfl (by decide) rfl).2 (kernKeyStr 1 "A") "A" (parse_kernKeyStr_one "A")⟩

end GlyphsGroups

namespace GlyphsGroups

/-! ### C4 and C10: metadata replay of empty and stale groups -/

theorem to_ufo_groups_ok_inv (b b₁ : Builder) (h : to_ufo_groups b = .ok b₁) :
    ∃ T, buildGroups b.font = .ok T ∧
      b₁ = { b with sources := b.sources.map (applyTable T) } := by
  have h' : (do
      let table ← buildGroups b.font
      Except.ok { b with sources := b.sources.map (applyTable table) } :
      Except String Builder) = Except.ok b₁ := h
  cases hbg : buildGroups b.font with
  | error e =>
      rw [hbg] at h'
      exact Except.noConfusion
        (show (Except.error e : Except String Builder) = Except.ok b₁ from h')
  | ok T =>
      rw [hbg] at h'
      have h'' : Except.ok { b with sources := b.sources.map (applyTable T) } =
          Except.ok b₁ := h'
      injection h'' with h''
      exact ⟨T, rfl, h''.symm⟩

theorem to_ufo_groups_eq (b : Builder) (T : AL) (h : buildGroups b.font = .ok T) :
    to_ufo_groups b = .ok { b with sources := b.sources.map (applyTable T) } := by
  unfold to_ufo_groups
  show (do
    let table ← buildGroups b.font
    Except.ok { b with sources := b.sources.map (applyTable table) } :
    Except String Builder) = _
  rw [h]
  exact rfl

/-- The names step 3 would append under a group key whose label no glyph
carries on the corresponding attribute: none. -/
theorem step3adds_nil (glyphs : List GSGlyph) (rtl : List String)
    (rec : List (String × Nat)) (side : Nat) (lbl : String)
    (h : ∀ g ∈ glyphs, ¬ g.getAttr (kAttr side (rtl.contains g.name)) = some lbl) :
    step3adds glyphs rtl rec side lbl = [] := by
  have hfil : glyphs.filter (step3pred rtl rec side lbl) = [] := by
    rw [List.filter_eq_nil_iff]
    intro g hg hp
    have happ := (step3pred_iff _ _ _ _ _).mp hp
    exact h g hg (side3app_eq_some g _ side rec lbl happ).2.1
  simp [step3adds, hfil]

theorem combine_nil (b : Option (List String)) : combine b [] = b := by
  simp [combine]

/-- C4 counterexample: a kerning group recorded with an empty member list
is not mapped to an empty glyph list by to_ufo_groups when a glyph still
carries the recorded label: the glyph is re-derived in step 3 and the
restored group comes out non-empty. -/
theorem c4_empty_group_counterexample :
    ("public.kern1.A", ([] : List String)) ∈ [("public.kern1.A", ([] : List String))] ∧
    (to_ufo_groups ⟨⟨[⟨"g", none, some "A"⟩], [], [], [],
        some [("public.kern1.A", [])], none⟩, [⟨[], none, "R"⟩], true⟩).map
      (fun b => b.sources.map (fun u => alLookup u.groups "public.kern1.A")) =
      .ok [some ["g"]] ∧
    (some ["g"] : Option (List String)) ≠ some [] :=
  ⟨List.mem_singleton.mpr rfl, rfl, by decide⟩

/-- C4 (amended): a kerning group recorded with an empty member list is
mapped to an empty glyph list in every build-font instance, provided no
glyph of the (RTL-free) design font still carries the group's label on
the corresponding side attribute (otherwise step 3 re-populates it). -/
theorem c4_empty_group_restored (b b₁ : Builder) (G : String) (md : AL)
    (hmd : b.font.userDataOrigGroups = some md)
    (hG : (G, ([] : List String)) ∈ md)
    (hnd : (md.map Prod.fst).Nodup)
    (hrtl : b.font.kerningRTL = [])
    (hnol : ∀ side lbl, parseKernGroup G = some (side, lbl) →
      ∀ g ∈ b.font.glyphs, ¬ g.getAttr (kAttr side false) = some lbl)
    (hT : to_ufo_groups b = .ok b₁) :
    ∀ u ∈ b₁.sources, alLookup u.groups G = some [] := by
  obtain ⟨T, hbg, hb₁⟩ := to_ufo_groups_ok_inv b b₁ hT
  obtain ⟨st, rtl, h2, hr, hTe⟩ := buildGroups_ok_inv _ _ hbg
  rw [rtl_empty_ok b.font hrtl] at hr
  injection hr with hre
  rw [hmd] at h2
  simp only [Option.getD_some] at h2
  have hstG : alLookup st.1 G = some [] := step2_at_empty b.font md _ st G h2 hnd hG
  have hTG : alLookup T G = some [] := by
    subst hTe
    subst hre
    cases hpG : parseKernGroup G with
    | none =>
        rw [step3_lookup_other _ _ _ _ _ hpG]
        exact hstG
    | some p =>
        obtain ⟨side, lbl⟩ := p
        obtain ⟨hGe, hside⟩ := parseKernGroup_inj G side lbl hpG
        subst hGe
        rw [step3_lookup_kern _ _ _ _ side lbl hside]
        rw [step3adds_nil _ _ _ side lbl ?hnone]
        case hnone =>
          intro g hg
          have := hnol side lbl (parse_kernKeyStr side hside lbl) g hg
          simpa using this
        rw [combine_nil]
        exact hstG
  subst hb₁
  intro u hu
  simp only [List.mem_map] at hu
  obtain ⟨u₀, hu₀, hue⟩ := hu
  subst hue
  exact foldl_alSet_lookup T u₀.groups G [] (buildGroups_keys_nodup _ _ hbg) hTG

end GlyphsGroups

namespace GlyphsGroups

/-- Witness for the amended C4: the recorded empty group survives into
the (non-empty-to-begin-with) build instance as an empty entry. -/
theorem c4_empty_group_restored_witness :
    alLookup [("stale", ["x"]), ("public.kern1.A", []), ("public.kern1.B", ["g"])]
      "public.kern1.A" = some [] := by
  have h := c4_empty_group_restored
    ⟨⟨[⟨"g", none, some "B"⟩], [], [], [], some [("public.kern1.A", [])], none⟩,
      [⟨[("stale", ["x"])], none, "R"⟩], true⟩
    ⟨⟨[⟨"g", none, some "B"⟩], [], [], [], some [("public.kern1.A", [])], none⟩,
      [⟨[("stale", ["x"]), ("public.kern1.A", []), ("public.kern1.B", ["g"])], none, "R"⟩],
      true⟩
    "public.kern1.A" [("public.kern1.A", [])] rfl (List.mem_singleton.mpr rfl) (by decide)
    rfl ?hnol rfl
  case hnol =>
    intro side lbl hp g hg
    have hp0 : parseKernGroup "public.kern1.A" = some (1, "A") := rfl
    rw [hp0] at hp
    injection hp with hp
    rw [Prod.mk.injEq] at hp
    obtain ⟨hs, hl⟩ := hp
    subst hs
    subst hl
    simp only [List.mem_singleton] at hg
    subst hg
    decide
  exact h ⟨[("stale", ["x"]), ("public.kern1.A", []), ("public.kern1.B", ["g"])], none, "R"⟩
    (List.mem_singleton.mpr rfl)

/-- C10: during metadata replay, a recorded kerning group with a
non-empty list all of whose recorded glyphs still exist but carry a
different label produces no entry at all in the built table (given that
no glyph derives the group in step 3 and no flagged class seeds it),
while a group recorded with an empty list is restored as an empty
entry. -/
theorem c10_stale_group_disappears (font : GSFont) (md : AL) (G : String) (side : Nat)
    (N : String) (L : List String) (T : AL)
    (hmd : font.userDataOrigGroups = some md)
    (hnd : (md.map Prod.fst).Nodup)
    (hmem : (G, L) ∈ md) (hL : L ≠ [])
    (hp : parseKernGroup G = some (side, N))
    (hexist : ∀ x ∈ L, ∃ g ∈ font.glyphs, g.name = x)
    (hstale : ∀ g ∈ font.glyphs, ¬ g.getAttr (kAttr side false) = some N)
    (hrtl : font.kerningRTL = [])
    (hflagG : (font.userDataGroupsNotInFeature.getD []).contains G = false)
    (hT : buildGroups font = .ok T) :
    alLookup T G = none ∧
    (∀ G₂, (G₂, ([] : List String)) ∈ md →
      (∀ side₂ lbl₂, parseKernGroup G₂ = some (side₂, lbl₂) →
        ∀ g ∈ font.glyphs, ¬ g.getAttr (kAttr side₂ false) = some lbl₂) →
      alLookup T G₂ = some []) := by
  obtain ⟨st, rtl, h2, hr, hTe⟩ := buildGroups_ok_inv _ _ hT
  rw [rtl_empty_ok font hrtl] at hr
  injection hr with hre
  rw [hmd] at h2
  simp only [Option.getD_some] at h2
  have hside := (parseKernGroup_inj G side N hp).2
  constructor
  · have hfil : L.filter (fun x => validOrig font side N x) = [] := by
      rw [List.filter_eq_nil_iff]
      intro x hx
      obtain ⟨g, hg, hgname⟩ := hexist x hx
      unfold validOrig
      have hfind : font.glyphs.find? (fun g' => g'.name == x) ≠ none := by
        intro hcon
        rw [List.find?_eq_none] at hcon
        exact hcon g hg (by simp [hgname])
      cases hf : font.glyphs.find? (fun g' => g'.name == x) with
      | none => exact absurd hf hfind
      | some g₀ =>
          have hg₀ := List.mem_of_find?_eq_some hf
          rw [glyph_attr_eq_kAttr side hside false]
          simp only [beq_iff_eq]
          intro hcon2
          exact hstale g₀ hg₀ (by simpa using hcon2)
    have hstG : alLookup st.1 G = none := by
      have := step2_at_nonempty font md _ st G side N L h2 hnd hmem hL hp
      rw [hfil] at this
      rw [this, combine_nil, step1_lookup, step1val_none _ _ _ ?hc]
      case hc =>
        intro c hc hcon hce
        rw [hce] at hcon
        rw [hflagG] at hcon
        exact Bool.false_ne_true hcon
      rfl
    subst hTe
    subst hre
    obtain ⟨hGe, _⟩ := parseKernGroup_inj G side N hp
    subst hGe
    rw [step3_lookup_kern _ _ _ _ side N hside]
    rw [step3adds_nil _ _ _ side N ?hnone]
    case hnone =>
      intro g hg
      have := hstale g hg
      simpa using this
    rw [combine_nil]
    exact hstG
  · intro G₂ hG₂ hnol₂
    have hstG₂ : alLookup st.1 G₂ = some [] := step2_at_empty font md _ st G₂ h2 hnd hG₂
    subst hTe
    subst hre
    cases hpG₂ : parseKernGroup G₂ with
    | none =>
        rw [step3_lookup_other _ _ _ _ _ hpG₂]
        exact hstG₂
    | some p2 =>
        obtain ⟨side₂, lbl₂⟩ := p2
        obtain ⟨hGe₂, hside₂⟩ := parseKernGroup_inj G₂ side₂ lbl₂ hpG₂
        subst hGe₂
        rw [step3_lookup_kern _ _ _ _ side₂ lbl₂ hside₂]
        rw [step3adds_nil _ _ _ side₂ lbl₂ ?hnone₂]
        case hnone₂ =>
          intro g hg
          have := hnol₂ side₂ lbl₂ (parse_kernKeyStr side₂ hside₂ lbl₂) g hg
          simpa using this
        rw [combine_nil]
        exact hstG₂

/-- Witness for C10 at a concrete font: the stale group public.kern1.A
disappears while the empty-recorded group public.kern1.E survives. -/
theorem c10_stale_group_disappears_witness :
    alLookup [("public.kern1.E", []), ("public.kern1.B", ["g"])] "public.kern1.A" = none ∧
    alLookup [("public.kern1.E", []), ("public.kern1.B", ["g"])] "public.kern1.E" =
      some [] := by
  have h := c10_stale_group_disappears
    ⟨[⟨"g", none, some "B"⟩], [], [], [],
      some [("public.kern1.A", ["g"]), ("public.kern1.E", [])], none⟩
    [("public.kern1.A", ["g"]), ("public.kern1.E", [])]
    "public.kern1.A" 1 "A" ["g"]
    [("public.kern1.E", []), ("public.kern1.B", ["g"])]
    rfl (by decide) (by decide) (by decide) rfl
    (by
      intro x hx
      simp only [List.mem_singleton] at hx
      subst hx
      exact ⟨⟨"g", none, some "B"⟩, List.mem_singleton.mpr rfl, rfl⟩)
    (by
      intro g hg
      simp only [List.mem_singleton] at hg
      subst hg
      decide)
    rfl rfl rfl
  refine ⟨h.1, ?_⟩
  refine h.2 "public.kern1.E" (by decide) ?_
  intro side₂ lbl₂ hp g hg
  have hp0 : parseKernGroup "public.kern1.E" = some (1, "E") := rfl
  rw [hp0] at hp
  injection hp with hp
  rw [Prod.mk.injEq] at hp
  obtain ⟨hs, hl⟩ := hp
  subst hs
  subst hl
  simp only [List.mem_singleton] at hg
  subst hg
  decide

end GlyphsGroups

namespace GlyphsGroups

/-! ### C8: duplicate-freedom of built group lists -/

theorem step1val_some (classes : List GSClass) (flagged : List String) (G : String)
    (v : List String) (h : step1val classes flagged G = some v) :
    ∃ c ∈ classes, flagged.contains c.name = true ∧ c.name = G ∧
      v = (if c.code ≠ "" then pySplitSpace c.code else []) := by
  induction classes with
  | nil => exact absurd h (by simp [step1val])
  | cons c rest ih =>
      rw [step1val_cons] at h
      cases hv : step1val rest flagged G with
      | some w =>
          rw [hv] at h
          have h' : some w = some v := h
          injection h' with h'
          subst h'
          obtain ⟨c', hc', hf, hn, he⟩ := ih hv
          exact ⟨c', List.mem_cons_of_mem _ hc', hf, hn, he⟩
      | none =>
          rw [hv] at h
          have h' : (if flagged.contains c.name then
              if c.name = G then some (if c.code ≠ "" then pySplitSpace c.code else [])
              else none
            else none) = some v := h
          by_cases hf : flagged.contains c.name = true
          · rw [if_pos hf] at h'
            by_cases hn : c.name = G
            · rw [if_pos hn] at h'
              injection h' with h'
              exact ⟨c, List.mem_cons_self _ _, hf, hn, h'.symm⟩
            · rw [if_neg hn] at h'
              cases h'
          · rw [if_neg hf] at h'
            cases h'

theorem combine_none (l : List String) :
    combine none l = if l.isEmpty then none else some l := by
  cases l <;> simp [combine]

theorem combine_ne_nil (b : Option (List String)) (l : List String) (h : l ≠ []) :
    combine b l = some (b.getD [] ++ l) := by
  cases l with
  | nil => exact absurd rfl h
  | cons x xs => simp [combine]

/-- C8 counterexample: a duplicate in a recorded metadata list survives
replay, so the built table carries a duplicated glyph name. -/
theorem c8_dup_counterexample :
    buildGroups ⟨[⟨"g", none, some "A"⟩], [], [], [],
        some [("public.kern1.A", ["g", "g"])], none⟩ =
      .ok [("public.kern1.A", ["g", "g"])] ∧
    ¬ (["g", "g"] : List String).Nodup :=
  ⟨rfl, by decide⟩

/-- C8 (amended): every glyph list of the table built by to_ufo_groups is
duplicate-free, provided glyph names are unique, the recorded metadata
has unique keys and duplicate-free member lists, the flagged class names
are not kerning-group names, and the flagged classes carry
duplicate-free code token lists. -/
theorem c8_built_lists_dup_free (font : GSFont) (T : AL)
    (hnd : (font.glyphs.map GSGlyph.name).Nodup)
    (hmdk : ((font.userDataOrigGroups.getD []).map Prod.fst).Nodup)
    (hmdl : ∀ p ∈ font.userDataOrigGroups.getD [], p.2.Nodup)
    (hflag : ∀ n ∈ font.userDataGroupsNotInFeature.getD [], _is_kerning_group n = false)
    (hcls : ∀ c ∈ font.classes,
      (font.userDataGroupsNotInFeature.getD []).contains c.name = true →
      (if c.code ≠ "" then pySplitSpace c.code else []).Nodup)
    (hT : buildGroups font = .ok T) :
    ∀ G L, alLookup T G = some L → L.Nodup := by
  intro G L hTL
  obtain ⟨st, rtl, h2, hr, hTe⟩ := buildGroups_ok_inv _ _ hT
  subst hTe
  have hB1none : ∀ G' : String, _is_kerning_group G' = true →
      alLookup (step1 font.classes (font.userDataGroupsNotInFeature.getD []) []) G' = none := by
    intro G' hk
    rw [step1_lookup, step1val_none _ _ _ ?hc]
    case hc =>
      intro c hc hcon hce
      have := hflag c.name (List.elem_iff.mp hcon)
      rw [hce, hk] at this
      exact Bool.noConfusion this
    rfl
  cases hpG : parseKernGroup G with
  | none =>
      rw [step3_lookup_other _ _ _ _ _ hpG] at hTL
      by_cases hm : G ∈ (font.userDataOrigGroups.getD []).map Prod.fst
      · obtain ⟨p, hp, hpe⟩ := List.mem_map.mp hm
        obtain ⟨G', L₀⟩ := p
        have hpe' : G' = G := hpe
        subst hpe'
        cases L₀ with
        | nil =>
            have hsome := step2_at_empty font _ _ st G' h2 hmdk hp
            rw [hsome] at hTL
            injection hTL with hTL
            rw [← hTL]
            exact List.nodup_nil
        | cons y ys =>
            have hps := step2_ok_parse font _ _ st h2 (G', y :: ys) hp (by simp)
            rw [hpG] at hps
            simp at hps
      · have hfr := step2_frame font _ _ st G h2 hm
        rw [hfr, step1_lookup] at hTL
        cases hv : step1val font.classes (font.userDataGroupsNotInFeature.getD []) G with
        | none =>
            rw [hv] at hTL
            have hTL' : alLookup ([] : AL) G = some L := hTL
            rw [alLookup_nil] at hTL'
            cases hTL'
        | some v =>
            rw [hv] at hTL
            have hTL' : some v = some L := hTL
            injection hTL' with hTL'
            subst hTL'
            obtain ⟨c, hcm, hcf, _, hce⟩ := step1val_some _ _ _ _ hv
            rw [hce]
            exact hcls c hcm hcf
  | some p =>
      obtain ⟨side, N⟩ := p
      obtain ⟨hGe, hside⟩ := parseKernGroup_inj G side N hpG
      subst hGe
      rw [step3_lookup_kern _ _ _ _ side N hside] at hTL
      have hstv : alLookup st.1 (kernKeyStr side N) = none ∨
          alLookup st.1 (kernKeyStr side N) = some [] ∨
          ∃ L₀, (kernKeyStr side N, L₀) ∈ font.userDataOrigGroups.getD [] ∧ L₀.Nodup ∧
            alLookup st.1 (kernKeyStr side N) =
              combine none (L₀.filter (fun x => validOrig font side N x)) := by
        by_cases hm : kernKeyStr side N ∈ (font.userDataOrigGroups.getD []).map Prod.fst
        · obtain ⟨p, hp, hpe⟩ := List.mem_map.mp hm
          obtain ⟨G', L₀⟩ := p
          have hpe' : G' = kernKeyStr side N := hpe
          subst hpe'
          cases L₀ with
          | nil => exact Or.inr (Or.inl (step2_at_empty font _ _ st (kernKeyStr side N) h2 hmdk hp))
          | cons y ys =>
              refine Or.inr (Or.inr ⟨y :: ys, hp, hmdl _ hp, ?_⟩)
              have := step2_at_nonempty font _ _ st (kernKeyStr side N) side N (y :: ys) h2 hmdk hp
                (by simp) (parse_kernKeyStr side hside N)
              rw [this, hB1none _ (kern_of_parse _ _ _ (parse_kernKeyStr side hside N))]
        · have hfr := step2_frame font _ _ st (kernKeyStr side N) h2 hm
          rw [hfr, hB1none _ (kern_of_parse _ _ _ (parse_kernKeyStr side hside N))]
          exact Or.inl rfl
      have hpre_rec : ∀ v, alLookup st.1 (kernKeyStr side N) = some v →
          ∀ x ∈ v, (x, side) ∈ st.2 := by
        intro v hv x hx
        rcases hstv with h | h | ⟨L₀, hpmem, hL₀nd, h⟩
        · rw [h] at hv
          cases hv
        · rw [h] at hv
          injection hv with hv
          rw [← hv] at hx
          simp at hx
        · rw [h, combine_none] at hv
          cases hfe : (L₀.filter (fun x => validOrig font side N x)).isEmpty with
          | true =>
              rw [hfe] at hv
              cases hv
          | false =>
              rw [hfe] at hv
              simp only [Bool.false_eq_true, if_false, Option.some.injEq] at hv
              rw [← hv] at hx
              have hxf := List.mem_filter.mp hx
              exact step2_rec_complete font _ _ st (kernKeyStr side N) side N L₀ x h2 hpmem
                (parse_kernKeyStr side hside N) hxf.1 hxf.2
      have haddsnd : (step3adds font.glyphs rtl st.2 side N).Nodup :=
        List.Nodup.sublist (List.Sublist.map _ (List.filter_sublist _)) hnd
      have hdisj : ∀ x, x ∈ (alLookup st.1 (kernKeyStr side N)).getD [] →
          ¬ x ∈ step3adds font.glyphs rtl st.2 side N := by
        intro x hxpre hxadd
        obtain ⟨g, hgf, hge⟩ := List.mem_map.mp hxadd
        have hgp := List.mem_filter.mp hgf
        have happ := (step3pred_iff _ _ _ _ _).mp hgp.2
        have hcon := (side3app_eq_some g _ side st.2 N happ).1
        cases hb : alLookup st.1 (kernKeyStr side N) with
        | none =>
            rw [hb] at hxpre
            simp at hxpre
        | some v =>
            rw [hb] at hxpre
            simp only [Option.getD_some] at hxpre
            have hrec := hpre_rec v hb x hxpre
            rw [← hge] at hrec
            have htrue : st.2.contains (g.name, side) = true := List.elem_iff.mpr hrec
            rw [hcon] at htrue
            exact Bool.false_ne_true htrue
      by_cases hae : step3adds font.glyphs rtl st.2 side N = []
      · rw [hae, combine_nil] at hTL
        rcases hstv with h | h | ⟨L₀, hpmem, hL₀nd, h⟩
        · rw [h] at hTL
          cases hTL
        · rw [h] at hTL
          injection hTL with hTL
          rw [← hTL]
          exact List.nodup_nil
        · rw [h, combine_none] at hTL
          cases hfe : (L₀.filter (fun x => validOrig font side N x)).isEmpty with
          | true =>
              rw [hfe] at hTL
              cases hTL
          | false =>
              rw [hfe] at hTL
              simp only [Bool.false_eq_true, if_false, Option.some.injEq] at hTL
              rw [← hTL]
              exact List.Nodup.filter _ hL₀nd
      · rw [combine_ne_nil _ _ hae] at hTL
        injection hTL with hTL
        rw [← hTL]
        refine List.Nodup.append ?_ haddsnd ?_
        · rcases hstv with h | h | ⟨L₀, hpmem, hL₀nd, h⟩
          · rw [h]
            exact List.nodup_nil
          · rw [h]
            exact List.nodup_nil
          · rw [h, combine_getD]
            simp only [Option.getD_none, List.nil_append]
            exact List.Nodup.filter _ hL₀nd
        · intro x hx1 hx2
          exact hdisj x hx1 hx2

/-- Witness for the amended C8 at a concrete font combining a metadata
group, an empty group and a step-3 group. -/
theorem c8_built_lists_dup_free_witness :
    buildGroups ⟨[⟨"g", none, some "A"⟩], [], [], [],
        some [("public.kern1.A", ["h", "g"]), ("public.kern1.E", [])], none⟩ =
      .ok [("public.kern1.A", ["h", "g"]), ("public.kern1.E", [])] ∧
    (["h", "g"] : List String).Nodup := by
  refine ⟨rfl, ?_⟩
  refine c8_built_lists_dup_free
    ⟨[⟨"g", none, some "A"⟩], [], [], [],
      some [("public.kern1.A", ["h", "g"]), ("public.kern1.E", [])], none⟩
    [("public.kern1.A", ["h", "g"]), ("public.kern1.E", [])]
    (by decide) (by decide) (by decide) (by decide) (by decide) rfl
    "public.kern1.A" ["h", "g"] rfl

end GlyphsGroups

namespace GlyphsGroups

/-! ### C7: the write-back never touches glyphs absent from the reference groups -/

/-- setattr never changes the glyph's name. -/
theorem setAttr_name (g : GSGlyph) (a : KerningAttr) (v : Option String) :
    (g.setAttr a v).name = g.name := by
  cases a <;> rfl

/-- Filtering after a pointwise map that preserves the predicate and fixes
the selected elements equals filtering the original list. -/
theorem filter_map_eq_self (l : List GSGlyph) (F : GSGlyph → GSGlyph) (p : GSGlyph → Bool)
    (hp : ∀ g, p (F g) = p g) (hid : ∀ g, p g = true → F g = g) :
    (l.map F).filter p = l.filter p := by
  induction l with
  | nil => rfl
  | cons g rest ih =>
      rw [List.map_cons, List.filter_cons, List.filter_cons, hp g]
      by_cases h : p g = true
      · rw [if_pos h, if_pos h, hid g h, ih]
      · rw [if_neg h, if_neg h, ih]

/-- The name-guarded attribute write of _to_glyphs_kerning_group leaves the
filter slice of any other glyph name unchanged. -/
theorem map_setattr_filter (glyphs : List GSGlyph) (x : String) (a : KerningAttr)
    (v : Option String) (t : String) (hne : t ≠ x) :
    (glyphs.map (fun g => if g.name == x then g.setAttr a v else g)).filter
        (fun g => g.name == t)
      = glyphs.filter (fun g => g.name == t) := by
  apply filter_map_eq_self
  · intro g
    by_cases h : (g.name == x) = true
    · rw [if_pos h, setAttr_name]
    · rw [if_neg h]
  · intro g hg
    have hgx : g.name ≠ x := by
      rw [beq_iff_eq.mp hg]; exact hne
    have hfalse : (g.name == x) = false := beq_eq_false_iff_ne.mpr hgx
    rw [if_neg (by rw [hfalse]; exact Bool.false_ne_true)]

/-- The member fold of _to_glyphs_kerning_group preserves the filter slice
of any glyph name outside the member list. -/
theorem foldl_setattr_filter (members : List String) (a : KerningAttr) (N : String)
    (f : GSFont) (t : String) :
    members.contains t = false →
    ((members.foldl (fun f x =>
        { f with glyphs := f.glyphs.map (fun g =>
            if g.name == x then g.setAttr a (some N) else g) }) f).glyphs).filter
        (fun g => g.name == t)
      = f.glyphs.filter (fun g => g.name == t) := by
  induction members generalizing f with
  | nil => intro _; rfl
  | cons y rest ih =>
      intro ht
      simp only [List.contains_cons, Bool.or_eq_false_iff] at ht
      rw [List.foldl_cons, ih _ ht.2]
      exact map_setattr_filter f.glyphs y a (some N) t
        (fun h => Bool.false_ne_true (by rw [← ht.1, h, beq_self_eq_true]))

/-- Inversion of _to_glyphs_kerning_group: success determines the parsed
side, label and attribute, and the result is the member fold over the
(possibly metadata-extended) font. -/
theorem to_glyphs_kg_inv (minimize : Bool) (font : GSFont) (name : String)
    (glyphs : List String) (font' : GSFont)
    (hok : _to_glyphs_kerning_group minimize font name glyphs = .ok font') :
    ∃ side N a, parseKernGroup name = some (side, N) ∧
      _glyph_kerning_attr side = some a ∧
      font' = glyphs.foldl (fun f x =>
          { f with glyphs := f.glyphs.map (fun g =>
              if g.name == x then g.setAttr a (some N) else g) })
        (if minimize then
           { font with
               userDataOrigGroups :=
                 some (alSet (font.userDataOrigGroups.getD []) name glyphs) }
         else font) := by
  have hok' : (match parseKernGroup name with
      | none => Except.error ("not a kerning group name: " ++ name)
      | some (side, group_name) =>
          match _glyph_kerning_attr side with
          | none => Except.error ("invalid kerning side: " ++ toString side)
          | some a => Except.ok (glyphs.foldl (fun f x =>
              { f with glyphs := f.glyphs.map (fun g =>
                  if g.name == x then g.setAttr a (some group_name) else g) })
            (if minimize then
               { font with
                   userDataOrigGroups :=
                     some (alSet (font.userDataOrigGroups.getD []) name glyphs) }
             else font)) : Except String GSFont) = .ok font' := hok
  cases hp : parseKernGroup name with
  | none =>
      rw [hp] at hok'
      cases hok'
  | some sn =>
      obtain ⟨side, N⟩ := sn
      rw [hp] at hok'
      have hok2 : (match _glyph_kerning_attr side with
          | none => Except.error ("invalid kerning side: " ++ toString side)
          | some a => Except.ok (glyphs.foldl (fun f x =>
              { f with glyphs := f.glyphs.map (fun g =>
                  if g.name == x then g.setAttr a (some N) else g) })
            (if minimize then
               { font with
                   userDataOrigGroups :=
                     some (alSet (font.userDataOrigGroups.getD []) name glyphs) }
             else font)) : Except String GSFont) = .ok font' := hok'
      cases ha : _glyph_kerning_attr side with
      | none =>
          rw [ha] at hok2
          cases hok2
      | some a =>
          rw [ha] at hok2
          injection hok2 with h
          exact ⟨side, N, a, rfl, ha, h.symm⟩

/-- A successful kerning-group write-back preserves the filter slice of any
glyph name outside the member list. -/
theorem to_glyphs_kg_glyphs_filter (minimize : Bool) (font : GSFont) (name : String)
    (glyphs : List String) (font' : GSFont) (t : String)
    (hok : _to_glyphs_kerning_group minimize font name glyphs = .ok font')
    (ht : glyphs.contains t = false) :
    font'.glyphs.filter (fun g => g.name == t)
      = font.glyphs.filter (fun g => g.name == t) := by
  obtain ⟨side, N, a, _, _, hfe⟩ := to_glyphs_kg_inv minimize font name glyphs font' hok
  have hbase : (if minimize then
      { font with
          userDataOrigGroups :=
            some (alSet (font.userDataOrigGroups.getD []) name glyphs) }
    else font).glyphs = font.glyphs := by
    cases minimize <;> rfl
  rw [hfe, foldl_setattr_filter glyphs a N _ t ht, hbase]

/-- Inversion of processGroup on a kerning-group name. -/
theorem processGroup_kern_inv (minimize : Bool) (st : GSFont × List String)
    (name : String) (glyphs0 : List String) (out : GSFont × List String)
    (hok : processGroup minimize st name glyphs0 = .ok out)
    (hk : _is_kerning_group name = true) :
    ∃ f, _to_glyphs_kerning_group minimize st.1 name
        (glyphs0.filter (fun n => !(isBracketGlyph n))) = .ok f ∧ out = (f, st.2) := by
  have hok' : (if _is_kerning_group name then
      (do
        let f ← _to_glyphs_kerning_group minimize st.1 name
          (glyphs0.filter (fun n => !(isBracketGlyph n)))
        Except.ok (f, st.2) : Except String (GSFont × List String))
    else
      Except.ok ({ st.1 with classes := st.1.classes ++
          [⟨name, String.intercalate " " (glyphs0.filter (fun n => !(isBracketGlyph n)))⟩] },
        st.2 ++ [name])) = .ok out := hok
  rw [if_pos hk] at hok'
  cases htg : _to_glyphs_kerning_group minimize st.1 name
      (glyphs0.filter (fun n => !(isBracketGlyph n))) with
  | error e =>
      rw [htg] at hok'
      have hbad : (Except.error e : Except String (GSFont × List String)) = .ok out := hok'
      cases hbad
  | ok f =>
      rw [htg] at hok'
      have hgood : (Except.ok (f, st.2) : Except String (GSFont × List String)) = .ok out := hok'
      injection hgood with h
      exact ⟨f, rfl, h.symm⟩

/-- Inversion of processGroup on a non-kerning class name. -/
theorem processGroup_class_inv (minimize : Bool) (st : GSFont × List String)
    (name : String) (glyphs0 : List String) (out : GSFont × List String)
    (hok : processGroup minimize st name glyphs0 = .ok out)
    (hk : _is_kerning_group name = false) :
    out = ({ st.1 with classes := st.1.classes ++
        [⟨name, String.intercalate " " (glyphs0.filter (fun n => !(isBracketGlyph n)))⟩] },
      st.2 ++ [name]) := by
  have hok' : (if _is_kerning_group name then
      (do
        let f ← _to_glyphs_kerning_group minimize st.1 name
          (glyphs0.filter (fun n => !(isBracketGlyph n)))
        Except.ok (f, st.2) : Except String (GSFont × List String))
    else
      Except.ok ({ st.1 with classes := st.1.classes ++
          [⟨name, String.intercalate " " (glyphs0.filter (fun n => !(isBracketGlyph n)))⟩] },
        st.2 ++ [name])) = .ok out := hok
  rw [if_neg (by rw [hk]; exact Bool.false_ne_true)] at hok'
  injection hok' with h
  exact h.symm

/-- Processing the reference groups preserves the filter slice of any glyph
name mentioned in no group's member list. -/
theorem processGroups_filter_frame (minimize : Bool) (entries : AL)
    (st out : GSFont × List String) (t : String)
    (hok : processGroups minimize entries st = .ok out)
    (ht : ∀ p ∈ entries, p.2.contains t = false) :
    out.1.glyphs.filter (fun g => g.name == t)
      = st.1.glyphs.filter (fun g => g.name == t) := by
  induction entries generalizing st with
  | nil =>
      have h2 : (Except.ok st : Except String (GSFont × List String)) = .ok out := hok
      injection h2 with h
      rw [← h]
  | cons p rest ih =>
      obtain ⟨name, gl⟩ := p
      have hok' : (do
          let st1 ← processGroup minimize st name gl
          processGroups minimize rest st1) = Except.ok out := hok
      cases hpg : processGroup minimize st name gl with
      | error e =>
          rw [hpg] at hok'
          have hbad : (Except.error e : Except String (GSFont × List String)) = .ok out := hok'
          cases hbad
      | ok st1 =>
          rw [hpg] at hok'
          have hrest : processGroups minimize rest st1 = .ok out := hok'
          have hgl : gl.contains t = false := ht (name, gl) (List.mem_cons_self _ _)
          have hstep : st1.1.glyphs.filter (fun g => g.name == t)
              = st.1.glyphs.filter (fun g => g.name == t) := by
            by_cases hk : _is_kerning_group name = true
            · obtain ⟨f, htg, hout⟩ := processGroup_kern_inv minimize st name gl st1 hpg hk
              have hcf : (gl.filter (fun n => !(isBracketGlyph n))).contains t = false := by
                cases hc : (gl.filter (fun n => !(isBracketGlyph n))).contains t
                · rfl
                · have htm : t ∈ gl := List.mem_of_mem_filter (List.elem_iff.mp hc)
                  have htr : gl.contains t = true := List.elem_iff.mpr htm
                  rw [hgl] at htr
                  exact absurd htr Bool.false_ne_true
              rw [hout]
              exact to_glyphs_kg_glyphs_filter minimize st.1 name _ f t htg hcf
            · have hk' : _is_kerning_group name = false := by
                cases h : _is_kerning_group name
                · rfl
                · exact absurd h hk
              rw [processGroup_class_inv minimize st name gl st1 hpg hk']
          rw [ih st1 hrest (fun q hq => ht q (List.mem_cons_of_mem _ hq)), hstep]

/-- Equation for to_glyphs_groups on a non-empty source list. -/
theorem to_glyphs_groups_cons (b : Builder) (first : UFOFont) (rest : List UFOFont)
    (hs : b.sources = first :: rest) :
    to_glyphs_groups b = (do
      let st ← processGroups b.minimize_ufo_diffs first.groups (b.font, [])
      Except.ok ({ b with font :=
          if b.minimize_ufo_diffs then
            { st.1 with userDataGroupsNotInFeature := some st.2 }
          else st.1 },
        rest.foldl (fun ws v => ws ++ _assert_groups_are_identical first v) []) :
      Except String (Builder × List Warning)) := by
  unfold to_glyphs_groups
  rw [hs]

/-- C7: a design-font glyph whose name appears in no group of the reference
build-font instance is left entirely unchanged by the build-to-design
write-back: its slice of the glyph list (hence both of its kerning-group
attributes) is the same before and after to_glyphs_groups. -/
theorem c7_untouched_glyphs (b : Builder) (u : UFOFont) (rest : List UFOFont)
    (res : Builder × List Warning) (t : String)
    (hs : b.sources = u :: rest)
    (habs : ∀ p ∈ u.groups, p.2.contains t = false)
    (hok : to_glyphs_groups b = .ok res) :
    res.1.font.glyphs.filter (fun g => g.name == t)
      = b.font.glyphs.filter (fun g => g.name == t) := by
  rw [to_glyphs_groups_cons b u rest hs] at hok
  cases hpg : processGroups b.minimize_ufo_diffs u.groups (b.font, []) with
  | error e =>
      rw [hpg] at hok
      have hbad : (Except.error e : Except String (Builder × List Warning)) = .ok res := hok
      cases hbad
  | ok st =>
      rw [hpg] at hok
      have hok2 : (Except.ok ({ b with font :=
          if b.minimize_ufo_diffs then
            { st.1 with userDataGroupsNotInFeature := some st.2 }
          else st.1 },
        rest.foldl (fun ws v => ws ++ _assert_groups_are_identical u v) [])
          : Except String (Builder × List Warning)) = .ok res := hok
      injection hok2 with h
      rw [← h]
      show (if b.minimize_ufo_diffs then
          { st.1 with userDataGroupsNotInFeature := some st.2 }
        else st.1).glyphs.filter (fun g => g.name == t)
          = b.font.glyphs.filter (fun g => g.name == t)
      have hframe := processGroups_filter_frame b.minimize_ufo_diffs u.groups
        (b.font, []) st t hpg habs
      cases b.minimize_ufo_diffs
      · exact hframe
      · exact hframe

/-- Witness for C7 at a concrete builder: glyph z is in no reference group
and keeps its attributes while g is rewritten. -/
theorem c7_untouched_glyphs_witness :
    ((⟨⟨[⟨"z", some "L", some "R"⟩, ⟨"g", none, some "A"⟩], [], [], [], none, none⟩,
       [⟨[("public.kern1.A", ["g"])], none, "Reg"⟩], false⟩, ([] : List Warning))
        : Builder × List Warning).1.font.glyphs.filter (fun g => g.name == "z")
      = (⟨⟨[⟨"z", some "L", some "R"⟩, ⟨"g", none, none⟩], [], [], [], none, none⟩,
         [⟨[("public.kern1.A", ["g"])], none, "Reg"⟩], false⟩
          : Builder).font.glyphs.filter (fun g => g.name == "z") :=
  c7_untouched_glyphs
    ⟨⟨[⟨"z", some "L", some "R"⟩, ⟨"g", none, none⟩], [], [], [], none, none⟩,
     [⟨[("public.kern1.A", ["g"])], none, "Reg"⟩], false⟩
    ⟨[("public.kern1.A", ["g"])], none, "Reg"⟩ [] _ "z" rfl (by decide) rfl

end GlyphsGroups

namespace GlyphsGroups

/-! ### C1 machinery, part 1: what the write-back does to the design font -/

/-- Writing an attribute value it already holds leaves the glyph unchanged. -/
theorem setAttr_self (g : GSGlyph) (a : KerningAttr) (v : Option String)
    (h : g.getAttr a = v) : g.setAttr a v = g := by
  subst h
  cases a <;> rfl

/-- A map that fixes every element of a list is the identity on it. -/
theorem map_id_on {α : Type} (l : List α) (F : α → α) (h : ∀ x ∈ l, F x = x) :
    l.map F = l := by
  induction l with
  | nil => rfl
  | cons x xs ih =>
      rw [List.map_cons, h x (List.mem_cons_self _ _),
        ih (fun y hy => h y (List.mem_cons_of_mem _ hy))]

/-- The member fold of _to_glyphs_kerning_group is the identity when every
member glyph already carries the written label. -/
theorem foldl_setattr_id (members : List String) (a : KerningAttr) (N : String)
    (f : GSFont)
    (h : ∀ x ∈ members, ∀ g ∈ f.glyphs, g.name = x → g.getAttr a = some N) :
    members.foldl (fun f x =>
        { f with glyphs := f.glyphs.map (fun g =>
            if g.name == x then g.setAttr a (some N) else g) }) f = f := by
  induction members generalizing f with
  | nil => rfl
  | cons y rest ih =>
      rw [List.foldl_cons]
      have hmap : f.glyphs.map (fun g =>
          if g.name == y then g.setAttr a (some N) else g) = f.glyphs := by
        refine map_id_on _ _ ?_
        intro g hg
        by_cases hb : (g.name == y) = true
        · rw [if_pos hb]
          exact setAttr_self g a (some N)
            (h y (List.mem_cons_self _ _) g hg (beq_iff_eq.mp hb))
        · rw [if_neg hb]
      have hstep : ({ f with glyphs := f.glyphs.map (fun g =>
          if g.name == y then g.setAttr a (some N) else g) } : GSFont) = f := by
        rw [hmap]
      rw [hstep]
      exact ih f (fun x hx => h x (List.mem_cons_of_mem _ hx))

/-- The member fold of _to_glyphs_kerning_group only rewrites glyphs: the
kerning table and the metadata store are untouched. -/
theorem foldl_setattr_fields (members : List String) (a : KerningAttr) (N : String)
    (f : GSFont) :
    (members.foldl (fun f x =>
        { f with glyphs := f.glyphs.map (fun g =>
            if g.name == x then g.setAttr a (some N) else g) }) f).kerningRTL
        = f.kerningRTL ∧
      (members.foldl (fun f x =>
          { f with glyphs := f.glyphs.map (fun g =>
              if g.name == x then g.setAttr a (some N) else g) }) f).userDataOrigGroups
        = f.userDataOrigGroups := by
  induction members generalizing f with
  | nil => exact ⟨rfl, rfl⟩
  | cons y rest ih =>
      rw [List.foldl_cons]
      exact ih _

/-- A successful kerning-group write-back keeps the RTL kerning table and
updates the metadata store exactly when preservation is requested. -/
theorem to_glyphs_kg_fields (minimize : Bool) (font : GSFont) (name : String)
    (glyphs : List String) (font' : GSFont)
    (hok : _to_glyphs_kerning_group minimize font name glyphs = .ok font') :
    font'.kerningRTL = font.kerningRTL ∧
      font'.userDataOrigGroups =
        (if minimize then some (alSet (font.userDataOrigGroups.getD []) name glyphs)
         else font.userDataOrigGroups) := by
  obtain ⟨side, N, a, hp, ha, hfe⟩ := to_glyphs_kg_inv minimize font name glyphs font' hok
  subst hfe
  obtain ⟨h1, h2⟩ := foldl_setattr_fields glyphs a N
    (if minimize then
       { font with
           userDataOrigGroups :=
             some (alSet (font.userDataOrigGroups.getD []) name glyphs) }
     else font)
  constructor
  · rw [h1]
    cases minimize
    · rfl
    · rfl
  · rw [h2]
    cases minimize
    · rfl
    · rfl

/-- A successful kerning-group write-back is the identity on glyphs when
every member glyph already carries the decoded label on the attribute the
parsed side resolves to. -/
theorem to_glyphs_kg_glyphs_id (minimize : Bool) (font : GSFont) (name : String)
    (glyphs : List String) (font' : GSFont) (side : Nat) (N : String)
    (hok : _to_glyphs_kerning_group minimize font name glyphs = .ok font')
    (hp : parseKernGroup name = some (side, N))
    (hsound : ∀ x ∈ glyphs, ∀ g ∈ font.glyphs, g.name = x →
        g.getAttr (kAttr side false) = some N) :
    font'.glyphs = font.glyphs := by
  obtain ⟨side', N', a, hp', ha, hfe⟩ := to_glyphs_kg_inv minimize font name glyphs font' hok
  rw [hp] at hp'
  injection hp' with hp'
  rw [Prod.mk.injEq] at hp'
  obtain ⟨hse, hNe⟩ := hp'
  subst hse
  subst hNe
  have hside : side = 1 ∨ side = 2 := (parseKernGroup_inj name side N hp).2
  have ha2 : a = kAttr side false := by
    rw [glyph_attr_eq_kAttr side hside false] at ha
    injection ha with ha
    exact ha.symm
  have hbase : (if minimize then
      { font with
          userDataOrigGroups :=
            some (alSet (font.userDataOrigGroups.getD []) name glyphs) }
    else font).glyphs = font.glyphs := by
    cases minimize
    · rfl
    · rfl
  rw [hfe, foldl_setattr_id glyphs a N _ ?_, hbase]
  intro x hx g hg hn
  rw [ha2]
  refine hsound x hx g ?_ hn
  rw [← hbase]
  exact hg

/-- The metadata store the write-back builds from the reference table:
every kerning-group entry recorded in order, bracket glyphs filtered out. -/
def mdFold (base : AL) : AL → AL
  | [] => base
  | (name, gl) :: rest =>
      mdFold (if _is_kerning_group name then
                alSet base name (gl.filter (fun n => !(isBracketGlyph n)))
              else base) rest

theorem mdFold_cons (base : AL) (name : String) (gl : List String) (rest : AL) :
    mdFold base ((name, gl) :: rest) =
      mdFold (if _is_kerning_group name then
                alSet base name (gl.filter (fun n => !(isBracketGlyph n)))
              else base) rest := rfl

/-- Field effect of processing the whole reference table: the RTL kerning
table is kept, the metadata store becomes the recorded fold when
preservation is requested, and every collected class name is old or
non-kerning. -/
theorem processGroups_fields (minimize : Bool) (entries : AL)
    (st out : GSFont × List String)
    (hok : processGroups minimize entries st = .ok out) :
    out.1.kerningRTL = st.1.kerningRTL ∧
      (minimize = true →
        out.1.userDataOrigGroups.getD []
          = mdFold (st.1.userDataOrigGroups.getD []) entries) ∧
      (∀ n ∈ out.2, n ∈ st.2 ∨ _is_kerning_group n = false) := by
  induction entries generalizing st with
  | nil =>
      have h2 : (Except.ok st : Except String (GSFont × List String)) = .ok out := hok
      injection h2 with h
      subst h
      exact ⟨rfl, fun _ => rfl, fun n hn => Or.inl hn⟩
  | cons p rest ih =>
      obtain ⟨name, gl⟩ := p
      have hok' : (do
          let st1 ← processGroup minimize st name gl
          processGroups minimize rest st1) = Except.ok out := hok
      cases hpg : processGroup minimize st name gl with
      | error e =>
          rw [hpg] at hok'
          have hbad : (Except.error e : Except String (GSFont × List String)) = .ok out := hok'
          cases hbad
      | ok st1 =>
          rw [hpg] at hok'
          have hrest : processGroups minimize rest st1 = .ok out := hok'
          obtain ⟨ihr, ihm, iha⟩ := ih st1 hrest
          by_cases hk : _is_kerning_group name = true
          · obtain ⟨f, htg, hout⟩ := processGroup_kern_inv minimize st name gl st1 hpg hk
            obtain ⟨hfr, hfu⟩ := to_glyphs_kg_fields minimize st.1 name _ f htg
            subst hout
            refine ⟨?_, ?_, ?_⟩
            · rw [ihr]
              exact hfr
            · intro hm
              rw [ihm hm, mdFold_cons, if_pos hk]
              have hfu' : f.userDataOrigGroups
                  = some (alSet (st.1.userDataOrigGroups.getD []) name
                      (gl.filter (fun n => !(isBracketGlyph n)))) := by
                rw [hfu, if_pos hm]
              show mdFold (f.userDataOrigGroups.getD []) rest = _
              rw [hfu']
              exact rfl
            · intro n hn
              rcases iha n hn with h | h
              · exact Or.inl h
              · exact Or.inr h
          · have hk' : _is_kerning_group name = false := by
              cases h : _is_kerning_group name
              · rfl
              · exact absurd h hk
            have hout := processGroup_class_inv minimize st name gl st1 hpg hk'
            subst hout
            refine ⟨?_, ?_, ?_⟩
            · exact ihr
            · intro hm
              rw [ihm hm, mdFold_cons, if_neg (by rw [hk']; exact Bool.false_ne_true)]
            · intro n hn
              rcases iha n hn with h | h
              · rcases List.mem_append.mp h with h1 | h1
                · exact Or.inl h1
                · have he : n = name := by simpa using h1
                  exact Or.inr (he ▸ hk')
              · exact Or.inr h

/-- Processing the whole reference table is the identity on glyphs when
every kerning-group member already carries the decoded label. -/
theorem processGroups_glyphs_id (minimize : Bool) (entries : AL)
    (st out : GSFont × List String)
    (hok : processGroups minimize entries st = .ok out)
    (hsound : ∀ p ∈ entries, ∀ side N, parseKernGroup p.1 = some (side, N) →
        ∀ x ∈ p.2, ∀ g ∈ st.1.glyphs, g.name = x →
          g.getAttr (kAttr side false) = some N) :
    out.1.glyphs = st.1.glyphs := by
  induction entries generalizing st with
  | nil =>
      have h2 : (Except.ok st : Except String (GSFont × List String)) = .ok out := hok
      injection h2 with h
      subst h
      rfl
  | cons p rest ih =>
      obtain ⟨name, gl⟩ := p
      have hok' : (do
          let st1 ← processGroup minimize st name gl
          processGroups minimize rest st1) = Except.ok out := hok
      cases hpg : processGroup minimize st name gl with
      | error e =>
          rw [hpg] at hok'
          have hbad : (Except.error e : Except String (GSFont × List String)) = .ok out := hok'
          cases hbad
      | ok st1 =>
          rw [hpg] at hok'
          have hrest : processGroups minimize rest st1 = .ok out := hok'
          have hstep : st1.1.glyphs = st.1.glyphs := by
            by_cases hk : _is_kerning_group name = true
            · obtain ⟨f, htg, hout⟩ := processGroup_kern_inv minimize st name gl st1 hpg hk
              obtain ⟨side, N, a, hp, ha, _⟩ :=
                to_glyphs_kg_inv minimize st.1 name _ f htg
              have hid := to_glyphs_kg_glyphs_id minimize st.1 name
                (gl.filter (fun n => !(isBracketGlyph n))) f side N htg hp ?_
              · rw [hout]
                exact hid
              · intro x hx g hg hn
                exact hsound (name, gl) (List.mem_cons_self _ _) side N hp x
                  (List.mem_of_mem_filter hx) g hg hn
            · have hk' : _is_kerning_group name = false := by
                cases h : _is_kerning_group name
                · rfl
                · exact absurd h hk
              rw [processGroup_class_inv minimize st name gl st1 hpg hk']
          rw [ih st1 hrest ?_, hstep]
          intro q hq side N hp x hx g hg hn
          rw [hstep] at hg
          exact hsound q (List.mem_cons_of_mem _ hq) side N hp x hx g hg hn

end GlyphsGroups

namespace GlyphsGroups

/-! ### C1 machinery, part 2: the built table against the glyph attributes -/

/-- The value the metadata fold leaves under a key: the filtered list of
the last kerning-group entry with that name, if any. -/
def mdFoldVal (entries : AL) (G : String) : Option (List String) :=
  match entries with
  | [] => none
  | (name, gl) :: rest =>
      match mdFoldVal rest G with
      | some v => some v
      | none =>
          if _is_kerning_group name then
            if name = G then some (gl.filter (fun n => !(isBracketGlyph n))) else none
          else none

theorem mdFoldVal_cons (name : String) (gl : List String) (rest : AL) (G : String) :
    mdFoldVal ((name, gl) :: rest) G =
      match mdFoldVal rest G with
      | some v => some v
      | none =>
          if _is_kerning_group name then
            if name = G then some (gl.filter (fun n => !(isBracketGlyph n))) else none
          else none := rfl

theorem mdFold_lookup (base : AL) (entries : AL) (G : String) :
    alLookup (mdFold base entries) G =
      match mdFoldVal entries G with
      | some v => some v
      | none => alLookup base G := by
  induction entries generalizing base with
  | nil => rfl
  | cons p rest ih =>
      obtain ⟨name, gl⟩ := p
      rw [mdFold_cons, ih, mdFoldVal_cons]
      cases hv : mdFoldVal rest G with
      | some v => rfl
      | none =>
          show alLookup (if _is_kerning_group name then
              alSet base name (gl.filter (fun n => !(isBracketGlyph n))) else base) G =
            match (if _is_kerning_group name then
                (if name = G then some (gl.filter (fun n => !(isBracketGlyph n))) else none)
              else none) with
            | some v => some v
            | none => alLookup base G
          by_cases hk : _is_kerning_group name = true
          · rw [if_pos hk, if_pos hk]
            by_cases hn : name = G
            · subst hn
              rw [if_pos rfl, alLookup_alSet_self]
            · rw [if_neg hn]
              exact alLookup_alSet_ne _ _ _ _ (Ne.symm hn)
          · rw [if_neg hk, if_neg hk]

theorem mdFoldVal_none_of_absent (entries : AL) (G : String)
    (h : ¬ G ∈ entries.map Prod.fst) : mdFoldVal entries G = none := by
  induction entries with
  | nil => rfl
  | cons p rest ih =>
      obtain ⟨name, gl⟩ := p
      simp only [List.map_cons, List.mem_cons] at h
      push_neg at h
      rw [mdFoldVal_cons, ih h.2]
      show (if _is_kerning_group name then
          (if name = G then some (gl.filter (fun n => !(isBracketGlyph n))) else none)
        else none) = none
      by_cases hk : _is_kerning_group name = true
      · rw [if_pos hk, if_neg (fun he => h.1 he.symm)]
      · rw [if_neg hk]

theorem mdFoldVal_of_lookup (entries : AL) (G : String) (gl : List String)
    (hnd : (entries.map Prod.fst).Nodup) (h : alLookup entries G = some gl)
    (hk : _is_kerning_group G = true) :
    mdFoldVal entries G = some (gl.filter (fun n => !(isBracketGlyph n))) := by
  induction entries with
  | nil => exact Option.noConfusion h
  | cons p rest ih =>
      obtain ⟨name, gl'⟩ := p
      simp only [List.map_cons, List.nodup_cons] at hnd
      rw [alLookup_cons] at h
      rw [mdFoldVal_cons]
      by_cases he : name = G
      · rw [if_pos he] at h
        injection h with h
        subst he
        rw [mdFoldVal_none_of_absent rest name hnd.1]
        show (if _is_kerning_group name then
            (if name = name then some (gl'.filter (fun n => !(isBracketGlyph n))) else none)
          else none) = some (gl.filter (fun n => !(isBracketGlyph n)))
        rw [if_pos hk, if_pos rfl, h]
      · rw [if_neg he] at h
        rw [ih hnd.2 h]

theorem mdFold_keys_nodup (base : AL) (entries : AL)
    (h : (base.map Prod.fst).Nodup) : ((mdFold base entries).map Prod.fst).Nodup := by
  induction entries generalizing base with
  | nil => exact h
  | cons p rest ih =>
      obtain ⟨name, gl⟩ := p
      rw [mdFold_cons]
      by_cases hk : _is_kerning_group name = true
      · rw [if_pos hk]
        exact ih _ (keys_alSet_nodup _ _ _ h)
      · rw [if_neg hk]
        exact ih _ h

/-- With duplicate-free glyph names, the lookup of the replay validity
check finds the glyph itself. -/
theorem find_name_eq (glyphs : List GSGlyph) (g : GSGlyph)
    (hnd : (glyphs.map GSGlyph.name).Nodup) (hg : g ∈ glyphs) :
    glyphs.find? (fun g' => g'.name == g.name) = some g := by
  induction glyphs with
  | nil => cases hg
  | cons a rest ih =>
      simp only [List.map_cons, List.nodup_cons] at hnd
      rcases List.mem_cons.mp hg with he | hm
      · subst he
        exact List.find?_cons_of_pos _ (beq_self_eq_true _)
      · have hne : (a.name == g.name) = false := by
          refine beq_eq_false_iff_ne.mpr ?_
          intro he
          exact hnd.1 (he ▸ List.mem_map.mpr ⟨g, hm, rfl⟩)
        rw [List.find?_cons_of_neg _ (by rw [hne]; exact Bool.false_ne_true)]
        exact ih hnd.2 hm

/-- A glyph that carries the recorded label is a valid recorded member. -/
theorem validOrig_of_attr (font : GSFont) (side : Nat) (N : String) (g : GSGlyph)
    (hs : side = 1 ∨ side = 2)
    (hnd : (font.glyphs.map GSGlyph.name).Nodup) (hg : g ∈ font.glyphs)
    (hattr : g.getAttr (kAttr side false) = some N) :
    validOrig font side N g.name = true := by
  unfold validOrig
  rw [find_name_eq font.glyphs g hnd hg]
  show (match _glyph_kerning_attr side with
        | some a => g.getAttr a == some N
        | none => false) = true
  rw [glyph_attr_eq_kAttr side hs false]
  show (g.getAttr (kAttr side false) == some N) = true
  rw [hattr]
  exact beq_self_eq_true _

/-- A valid recorded member that still exists carries the recorded label. -/
theorem validOrig_attr (font : GSFont) (side : Nat) (N : String) (g : GSGlyph)
    (hs : side = 1 ∨ side = 2)
    (hnd : (font.glyphs.map GSGlyph.name).Nodup) (hg : g ∈ font.glyphs)
    (hv : validOrig font side N g.name = true) :
    g.getAttr (kAttr side false) = some N := by
  unfold validOrig at hv
  rw [find_name_eq font.glyphs g hnd hg] at hv
  have hv2 : (match _glyph_kerning_attr side with
      | some a => g.getAttr a == some N
      | none => false) = true := hv
  rw [glyph_attr_eq_kAttr side hs false] at hv2
  have hv3 : (g.getAttr (kAttr side false) == some N) = true := hv2
  exact beq_iff_eq.mp hv3

/-- The replay validity check depends on the font only through its glyphs. -/
theorem validOrig_congr (f1 f2 : GSFont) (h : f1.glyphs = f2.glyphs) (side : Nat)
    (N x : String) : validOrig f1 side N x = validOrig f2 side N x := by
  unfold validOrig
  rw [h]

theorem combine_some_mem (b : Option (List String)) (l L : List String)
    (h : combine b l = some L) : ∀ x ∈ L, x ∈ b.getD [] ∨ x ∈ l := by
  unfold combine at h
  cases l with
  | nil =>
      have hb : b = some L := h
      intro x hx
      left
      rw [hb]
      exact hx
  | cons c cs =>
      have hb : some (b.getD [] ++ c :: cs) = some L := h
      injection hb with hb
      intro x hx
      rw [← hb] at hx
      exact List.mem_append.mp hx

theorem combine_eq_none (b : Option (List String)) (l : List String)
    (h : combine b l = none) : b = none ∧ l = [] := by
  unfold combine at h
  cases l with
  | nil => exact ⟨h, rfl⟩
  | cons c cs =>
      have hb : some (b.getD [] ++ c :: cs) = (none : Option (List String)) := h
      exact Option.noConfusion hb

theorem combine_some_isSome (b : List String) (l : List String) :
    ∃ L, combine (some b) l = some L ∧ ∀ x ∈ b, x ∈ L := by
  cases l with
  | nil => exact ⟨b, combine_nil (some b), fun x hx => hx⟩
  | cons c cs => exact ⟨b ++ c :: cs, rfl, fun x hx => List.mem_append_left _ hx⟩

/-- When the flagged class names are not kerning-group names, the seeding
of step 1 leaves every kerning key absent. -/
theorem step1_lookup_none (classes : List GSClass) (flagged : List String) (K : String)
    (hK : _is_kerning_group K = true)
    (hflag : ∀ n ∈ flagged, _is_kerning_group n = false) :
    alLookup (step1 classes flagged []) K = none := by
  have hval := step1val_none classes flagged K (by
    intro c hc hcont heq
    have hmem : c.name ∈ flagged := List.elem_iff.mp hcont
    have hnk := hflag c.name hmem
    rw [heq, hK] at hnk
    cases hnk)
  rw [step1_lookup, hval]
  rfl

/-- Soundness of the built table for an RTL-free font: every member of a
built kerning group is a valid recorded member for that side and label,
and is either a font glyph name or a recorded metadata member. -/
theorem table_sound (font : GSFont) (T : AL) (side : Nat) (lbl : String) (L : List String)
    (hT : buildGroups font = .ok T)
    (hrtl : font.kerningRTL = [])
    (hnd : (font.glyphs.map GSGlyph.name).Nodup)
    (hmdnd : ((font.userDataOrigGroups.getD []).map Prod.fst).Nodup)
    (hflag : ∀ n ∈ font.userDataGroupsNotInFeature.getD [], _is_kerning_group n = false)
    (hs : side = 1 ∨ side = 2)
    (hL : alLookup T (kernKeyStr side lbl) = some L) :
    ∀ x ∈ L, validOrig font side lbl x = true ∧
      ((∃ g ∈ font.glyphs, g.name = x) ∨
        ∃ p ∈ font.userDataOrigGroups.getD [], x ∈ p.2) := by
  obtain ⟨stp, rtl, h2, hr, hTe⟩ := buildGroups_ok_inv font T hT
  have hr0 := rtl_empty_ok font hrtl
  rw [hr0] at hr
  injection hr with hre
  subst hTe
  rw [← hre] at hL
  rw [step3_lookup_kern font.glyphs [] stp.2 stp.1 side lbl hs] at hL
  have hB1 : alLookup (step1 font.classes (font.userDataGroupsNotInFeature.getD []) [])
      (kernKeyStr side lbl) = none :=
    step1_lookup_none _ _ _ (kern_of_parse _ _ _ (parse_kernKeyStr side hs lbl)) hflag
  intro x hx
  rcases combine_some_mem _ _ _ hL x hx with hxs | hxa
  · cases hst : alLookup stp.1 (kernKeyStr side lbl) with
    | none =>
        rw [hst] at hxs
        exact absurd hxs (List.not_mem_nil x)
    | some L0 =>
        rw [hst] at hxs
        by_cases hmem : (kernKeyStr side lbl) ∈ (font.userDataOrigGroups.getD []).map Prod.fst
        · have hsome : (alLookup (font.userDataOrigGroups.getD [])
              (kernKeyStr side lbl)).isSome = true :=
            (alLookup_isSome_iff _ _).mpr hmem
          cases hmd : alLookup (font.userDataOrigGroups.getD []) (kernKeyStr side lbl) with
          | none =>
              rw [hmd] at hsome
              cases hsome
          | some gl =>
              have hmdmem := alLookup_mem _ _ _ hmd
              cases gl with
              | nil =>
                  have hempty := step2_at_empty font _ _ stp (kernKeyStr side lbl)
                    h2 hmdnd hmdmem
                  rw [hst] at hempty
                  injection hempty with he
                  rw [he] at hxs
                  exact absurd hxs (List.not_mem_nil x)
              | cons y ys =>
                  have hne : (y :: ys : List String) ≠ [] := by simp
                  have hnon := step2_at_nonempty font _ _ stp (kernKeyStr side lbl) side lbl
                    (y :: ys) h2 hmdnd hmdmem hne (parse_kernKeyStr side hs lbl)
                  rw [hB1] at hnon
                  rw [hnon] at hst
                  rcases combine_some_mem none _ _ hst x hxs with h0 | hf
                  · exact absurd h0 (List.not_mem_nil x)
                  · obtain ⟨hxgl, hxv⟩ := List.mem_filter.mp hf
                    exact ⟨hxv, Or.inr ⟨(kernKeyStr side lbl, y :: ys), hmdmem, hxgl⟩⟩
        · have hframe := step2_frame font _ _ stp (kernKeyStr side lbl) h2 hmem
          have hcontra : (some L0 : Option (List String)) = none := by
            rw [← hst, hframe]
            exact hB1
          exact Option.noConfusion hcontra
  · have hxa' : x ∈ (font.glyphs.filter (step3pred [] stp.2 side lbl)).map
        (fun g => g.name) := hxa
    obtain ⟨g, hgf, hge⟩ := List.mem_map.mp hxa'
    obtain ⟨hgm, hgp⟩ := List.mem_filter.mp hgf
    have happ := (step3pred_iff [] stp.2 side lbl g).mp hgp
    have hprops := side3app_eq_some g _ side stp.2 lbl happ
    have hattr : g.getAttr (kAttr side false) = some lbl := hprops.2.1
    refine ⟨?_, Or.inl ⟨g, hgm, hge⟩⟩
    rw [← hge]
    exact validOrig_of_attr font side lbl g hs hnd hgm hattr

/-- Completeness of the built table for an RTL-free font: a glyph carrying
a non-empty label on the attribute for a side is a member of the built
group for that side and label. -/
theorem table_complete (font : GSFont) (T : AL) (side : Nat) (g : GSGlyph) (lbl : String)
    (hT : buildGroups font = .ok T)
    (hrtl : font.kerningRTL = [])
    (hnd : (font.glyphs.map GSGlyph.name).Nodup)
    (hmdnd : ((font.userDataOrigGroups.getD []).map Prod.fst).Nodup)
    (hs : side = 1 ∨ side = 2)
    (hg : g ∈ font.glyphs)
    (hattr : g.getAttr (kAttr side false) = some lbl)
    (hlbl : lbl ≠ "") :
    ∃ L, alLookup T (kernKeyStr side lbl) = some L ∧ g.name ∈ L := by
  obtain ⟨stp, rtl, h2, hr, hTe⟩ := buildGroups_ok_inv font T hT
  have hr0 := rtl_empty_ok font hrtl
  rw [hr0] at hr
  injection hr with hre
  subst hTe
  rw [← hre]
  rw [step3_lookup_kern font.glyphs [] stp.2 stp.1 side lbl hs]
  by_cases hrec : (g.name, side) ∈ stp.2
  · rcases step2_rec_sound font _ _ stp g.name side h2 hrec with h0 |
      ⟨G, L0, N, hGL, hps, hxL, hval⟩
    · exact absurd h0 (List.not_mem_nil _)
    · have hN : N = lbl := by
        have hsv := validOrig_attr font side N g hs hnd hg hval
        rw [hattr] at hsv
        injection hsv with hsv
        exact hsv.symm
      subst hN
      have hGK : G = kernKeyStr side N := (parseKernGroup_inj G side N hps).1
      subst hGK
      have hL0ne : L0 ≠ [] := fun he => by
        rw [he] at hxL
        exact absurd hxL (List.not_mem_nil _)
      have hnon := step2_at_nonempty font _ _ stp (kernKeyStr side N) side N L0
        h2 hmdnd hGL hL0ne hps
      have hmemf : g.name ∈ L0.filter (fun x => validOrig font side N x) :=
        List.mem_filter.mpr ⟨hxL, hval⟩
      have hFne : L0.filter (fun x => validOrig font side N x) ≠ [] := fun he => by
        rw [he] at hmemf
        exact absurd hmemf (List.not_mem_nil _)
      rw [hnon, combine_ne_nil _ _ hFne]
      obtain ⟨L, hLc, hsub⟩ := combine_some_isSome _
        (step3adds font.glyphs [] stp.2 side N)
      refine ⟨L, hLc, hsub _ ?_⟩
      exact List.mem_append_right _ hmemf
  · have hcont : stp.2.contains (g.name, side) = false := by
      cases hc : stp.2.contains (g.name, side)
      · rfl
      · exact absurd (List.elem_iff.mp hc) hrec
    have happ : side3app g (([] : List String).contains g.name) side stp.2 = some lbl := by
      refine side3app_some_of g _ side stp.2 lbl hcont ?_ hlbl
      exact hattr
    have hpred : step3pred [] stp.2 side lbl g = true := (step3pred_iff _ _ _ _ _).mpr happ
    have hmema : g.name ∈ step3adds font.glyphs [] stp.2 side lbl :=
      List.mem_map.mpr ⟨g, List.mem_filter.mpr ⟨hg, hpred⟩, rfl⟩
    have hane : step3adds font.glyphs [] stp.2 side lbl ≠ [] := fun he => by
      rw [he] at hmema
      exact absurd hmema (List.not_mem_nil _)
    rw [combine_ne_nil _ _ hane]
    exact ⟨_, rfl, List.mem_append_right _ hmema⟩

end GlyphsGroups

namespace GlyphsGroups

/-! ### C1: the design-build-design round trip -/

theorem alSet_absent {α : Type} (l : List (String × α)) (k : String) (v : α)
    (h : ¬ k ∈ l.map Prod.fst) : alSet l k v = l ++ [(k, v)] := by
  induction l with
  | nil => rfl
  | cons p rest ih =>
      obtain ⟨k', v'⟩ := p
      simp only [List.map_cons, List.mem_cons] at h
      push_neg at h
      rw [alSet_cons, if_neg (fun he => h.1 he.symm), ih h.2]
      rfl

theorem foldl_alSet_fresh (table : AL) (init : AL)
    (hnd : (table.map Prod.fst).Nodup)
    (hdisj : ∀ k ∈ table.map Prod.fst, ¬ k ∈ init.map Prod.fst) :
    table.foldl (fun gs p => alSet gs p.1 p.2) init = init ++ table := by
  induction table generalizing init with
  | nil => simp
  | cons p rest ih =>
      obtain ⟨k, v⟩ := p
      simp only [List.map_cons, List.nodup_cons] at hnd
      rw [List.foldl_cons]
      have hknotin : ¬ k ∈ init.map Prod.fst := hdisj k (by simp)
      have hdisj2 : ∀ k' ∈ rest.map Prod.fst, ¬ k' ∈ (init ++ [(k, v)]).map Prod.fst := by
        intro k' hk' hc
        rw [List.map_append] at hc
        rcases List.mem_append.mp hc with h1 | h1
        · exact hdisj k' (List.mem_cons_of_mem _ hk') h1
        · have he : k' = k := by simpa using h1
          exact hnd.1 (he ▸ hk')
      rw [show alSet init k v = init ++ [(k, v)] from alSet_absent init k v hknotin,
        ih (init ++ [(k, v)]) hnd.2 hdisj2, List.append_assoc]
      rfl

/-- Writing a duplicate-key-free table into an empty dict reproduces it. -/
theorem foldl_alSet_id (table : AL) (hnd : (table.map Prod.fst).Nodup) :
    table.foldl (fun gs p => alSet gs p.1 p.2) [] = table := by
  have h := foldl_alSet_fresh table [] hnd (fun k _ hc => by simp at hc)
  rw [h]
  rfl

/-- C1 counterexample: with round-trip preservation requested and no RTL
kerning, a flagged non-feature class whose name is itself a kerning-group
name is seeded into the build table by step 1, and the build-to-design
write-back then writes its decoded label onto a glyph attribute, so the
per-glyph side labels differ after design-build-design. -/
theorem c1_round_trip_counterexample :
    to_ufo_groups
        ⟨⟨[⟨"g", none, none⟩], [], [], [⟨"public.kern1.A", "g"⟩], none,
          some ["public.kern1.A"]⟩, [⟨[], none, "R"⟩], true⟩ =
      .ok ⟨⟨[⟨"g", none, none⟩], [], [], [⟨"public.kern1.A", "g"⟩], none,
          some ["public.kern1.A"]⟩,
        [⟨[("public.kern1.A", ["g"])], none, "R"⟩], true⟩ ∧
    to_glyphs_groups
        ⟨⟨[⟨"g", none, none⟩], [], [], [⟨"public.kern1.A", "g"⟩], none,
          some ["public.kern1.A"]⟩,
        [⟨[("public.kern1.A", ["g"])], none, "R"⟩], true⟩ =
      .ok (⟨⟨[⟨"g", none, some "A"⟩], [], [], [⟨"public.kern1.A", "g"⟩],
          some [("public.kern1.A", ["g"])], some []⟩,
        [⟨[("public.kern1.A", ["g"])], none, "R"⟩], true⟩, []) ∧
    glyphLabels ⟨[⟨"g", none, some "A"⟩], [], [], [⟨"public.kern1.A", "g"⟩],
        some [("public.kern1.A", ["g"])], some []⟩ ≠
      glyphLabels ⟨[⟨"g", none, none⟩], [], [], [⟨"public.kern1.A", "g"⟩], none,
        some ["public.kern1.A"]⟩ :=
  ⟨rfl, rfl, by decide⟩

/-- C1 (amended): for a design font with no RTL kerning and round-trip
preservation requested, under the hygiene hypotheses the claim implicitly
assumes (a non-empty source list whose first build instance starts with no
groups, duplicate-free glyph names and metadata keys, flagged non-feature
class names that are not kerning-group names, and no bracket glyph name
among the glyphs or the recorded members), the design-build-design round
trip reproduces every per-glyph side-1/side-2 label, and a subsequent
design-build conversion yields a table whose every kerning group holds the
same member list in the same order as the first one. -/
theorem c1_round_trip (b b₁ b₂ : Builder) (ws : List Warning) (u₀ : UFOFont)
    (rest₀ : List UFOFont) (T1 T2 : AL)
    (hsrc : b.sources = u₀ :: rest₀)
    (hfresh : u₀.groups = [])
    (hmin : b.minimize_ufo_diffs = true)
    (hrtl : b.font.kerningRTL = [])
    (hnd : (b.font.glyphs.map GSGlyph.name).Nodup)
    (hmdnd : ((b.font.userDataOrigGroups.getD []).map Prod.fst).Nodup)
    (hflag : ∀ n ∈ b.font.userDataGroupsNotInFeature.getD [], _is_kerning_group n = false)
    (hbr : ∀ g ∈ b.font.glyphs, isBracketGlyph g.name = false)
    (hbrmd : ∀ p ∈ b.font.userDataOrigGroups.getD [], ∀ x ∈ p.2, isBracketGlyph x = false)
    (hT : to_ufo_groups b = .ok b₁)
    (hW : to_glyphs_groups b₁ = .ok (b₂, ws))
    (hbg1 : buildGroups b.font = .ok T1)
    (hbg2 : buildGroups b₂.font = .ok T2) :
    glyphLabels b₂.font = glyphLabels b.font ∧
      ∀ side lbl, (side = 1 ∨ side = 2) →
        alLookup T2 (kernKeyStr side lbl) = alLookup T1 (kernKeyStr side lbl) := by
  obtain ⟨T, hbgT, hb1⟩ := to_ufo_groups_ok_inv b b₁ hT
  rw [hbg1] at hbgT
  injection hbgT with hTeq
  have hTeq' : T = T1 := hTeq.symm
  subst hTeq'
  have hT1nd : (T.map Prod.fst).Nodup := buildGroups_keys_nodup b.font T hbg1
  have hfirst : (applyTable T u₀).groups = T := by
    show (T.foldl (fun gs p => alSet gs p.1 p.2) u₀.groups) = T
    rw [hfresh]
    exact foldl_alSet_id T hT1nd
  have hs1 : b₁.sources = applyTable T u₀ :: rest₀.map (applyTable T) := by
    rw [hb1]
    show b.sources.map (applyTable T) = _
    rw [hsrc, List.map_cons]
  rw [to_glyphs_groups_cons b₁ (applyTable T u₀) (rest₀.map (applyTable T)) hs1] at hW
  cases hpg : processGroups b₁.minimize_ufo_diffs (applyTable T u₀).groups (b₁.font, []) with
  | error e =>
      rw [hpg] at hW
      exact Except.noConfusion
        (show (Except.error e : Except String (Builder × List Warning)) = .ok (b₂, ws) from hW)
  | ok stout =>
      rw [hpg] at hW
      have hW2 : (Except.ok ({ b₁ with font :=
          if b₁.minimize_ufo_diffs then
            { stout.1 with userDataGroupsNotInFeature := some stout.2 }
          else stout.1 },
        (rest₀.map (applyTable T)).foldl
          (fun ws v => ws ++ _assert_groups_are_identical (applyTable T u₀) v) [])
          : Except String (Builder × List Warning)) = .ok (b₂, ws) := hW
      injection hW2 with hW2
      rw [Prod.mk.injEq] at hW2
      obtain ⟨hb2, _⟩ := hW2
      have hmin1 : b₁.minimize_ufo_diffs = true := by
        rw [hb1]
        exact hmin
      have hfont1 : b₁.font = b.font := by
        rw [hb1]
      rw [hmin1, hfirst, hfont1] at hpg
      have hsound : ∀ p ∈ T, ∀ side N, parseKernGroup p.1 = some (side, N) →
          ∀ x ∈ p.2, ∀ g ∈ b.font.glyphs, g.name = x →
            g.getAttr (kAttr side false) = some N := by
        intro p hp side N hparse x hx g hg hgn
        obtain ⟨pk, pv⟩ := p
        have hps : side = 1 ∨ side = 2 := (parseKernGroup_inj pk side N hparse).2
        have hkey : pk = kernKeyStr side N := (parseKernGroup_inj pk side N hparse).1
        have hlook : alLookup T pk = some pv :=
          alLookup_eq_some_of_mem_nodup T hT1nd pk pv hp
        have hlook2 : alLookup T (kernKeyStr side N) = some pv := by
          rw [← hkey]
          exact hlook
        have hv := (table_sound b.font T side N pv hbg1 hrtl hnd hmdnd hflag hps
          hlook2 x hx).1
        rw [← hgn] at hv
        exact validOrig_attr b.font side N g hps hnd hg hv
      have hglyphs_out : stout.1.glyphs = b.font.glyphs :=
        processGroups_glyphs_id true T (b.font, []) stout hpg hsound
      obtain ⟨hrtl_out, hmd_out, hacc_out⟩ :=
        processGroups_fields true T (b.font, []) stout hpg
      have hmd2 : stout.1.userDataOrigGroups.getD []
          = mdFold (b.font.userDataOrigGroups.getD []) T := hmd_out rfl
      have hacc2 : ∀ n ∈ stout.2, _is_kerning_group n = false := by
        intro n hn
        rcases hacc_out n hn with h | h
        · exact absurd h (List.not_mem_nil _)
        · exact h
      have hb2f : b₂.font = { stout.1 with userDataGroupsNotInFeature := some stout.2 } := by
        rw [← hb2]
        show (if b₁.minimize_ufo_diffs then
            { stout.1 with userDataGroupsNotInFeature := some stout.2 }
          else stout.1) = { stout.1 with userDataGroupsNotInFeature := some stout.2 }
        rw [hmin1, if_pos rfl]
      have hb2glyphs : b₂.font.glyphs = b.font.glyphs := by
        rw [hb2f]
        exact hglyphs_out
      have hb2rtl : b₂.font.kerningRTL = [] := by
        rw [hb2f]
        show stout.1.kerningRTL = []
        rw [hrtl_out]
        exact hrtl
      have hb2md : b₂.font.userDataOrigGroups.getD []
          = mdFold (b.font.userDataOrigGroups.getD []) T := by
        rw [hb2f]
        exact hmd2
      have hb2flag : b₂.font.userDataGroupsNotInFeature.getD [] = stout.2 := by
        rw [hb2f]
        rfl
      constructor
      · unfold glyphLabels
        rw [hb2glyphs]
      · intro side lbl hs
        obtain ⟨st2, rtl2, h2₂, hr₂, hT2e⟩ := buildGroups_ok_inv b₂.font T2 hbg2
        have hr20 := rtl_empty_ok b₂.font hb2rtl
        rw [hr20] at hr₂
        injection hr₂ with hre2
        subst hT2e
        rw [← hre2]
        rw [step3_lookup_kern b₂.font.glyphs [] st2.2 st2.1 side lbl hs]
        have hkernK : _is_kerning_group (kernKeyStr side lbl) = true :=
          kern_of_parse _ _ _ (parse_kernKeyStr side hs lbl)
        have hB2 : alLookup (step1 b₂.font.classes
            (b₂.font.userDataGroupsNotInFeature.getD []) []) (kernKeyStr side lbl)
            = none := by
          refine step1_lookup_none _ _ _ hkernK ?_
          rw [hb2flag]
          exact hacc2
        have hmd2nd : ((b₂.font.userDataOrigGroups.getD []).map Prod.fst).Nodup := by
          rw [hb2md]
          exact mdFold_keys_nodup _ T hmdnd
        have hadds2 : step3adds b₂.font.glyphs [] st2.2 side lbl = [] := by
          have hfil : b₂.font.glyphs.filter (step3pred [] st2.2 side lbl) = [] := by
            rw [List.filter_eq_nil_iff]
            intro g hg hp
            have happ := (step3pred_iff [] st2.2 side lbl g).mp hp
            obtain ⟨hnc, hattr0, hlbl0⟩ := side3app_eq_some g _ side st2.2 lbl happ
            have hattr : g.getAttr (kAttr side false) = some lbl := hattr0
            have hgb : g ∈ b.font.glyphs := by
              rw [← hb2glyphs]
              exact hg
            obtain ⟨L, hLlook, hLmem⟩ := table_complete b.font T side g lbl hbg1 hrtl
              hnd hmdnd hs hgb hattr hlbl0
            have hLfil : L.filter (fun n => !(isBracketGlyph n)) = L := by
              rw [List.filter_eq_self]
              intro x hx
              rcases (table_sound b.font T side lbl L hbg1 hrtl hnd hmdnd hflag hs
                  hLlook x hx).2 with ⟨g', hg', hge⟩ | ⟨q, hqmem, hqx⟩
              · rw [← hge, hbr g' hg']
                rfl
              · rw [hbrmd q hqmem x hqx]
                rfl
            have hmdlook : alLookup (b₂.font.userDataOrigGroups.getD [])
                (kernKeyStr side lbl) = some L := by
              rw [hb2md, mdFold_lookup,
                mdFoldVal_of_lookup T (kernKeyStr side lbl) L hT1nd hLlook hkernK, hLfil]
            have hmdmem2 : (kernKeyStr side lbl, L) ∈ b₂.font.userDataOrigGroups.getD [] :=
              alLookup_mem _ _ _ hmdlook
            have hvalid2 : validOrig b₂.font side lbl g.name = true := by
              rw [validOrig_congr b₂.font b.font hb2glyphs]
              exact validOrig_of_attr b.font side lbl g hs hnd hgb hattr
            have hrec2 : (g.name, side) ∈ st2.2 :=
              step2_rec_complete b₂.font _ _ st2 (kernKeyStr side lbl) side lbl L g.name
                h2₂ hmdmem2 (parse_kernKeyStr side hs lbl) hLmem hvalid2
            have hcontra : st2.2.contains (g.name, side) = true := List.elem_iff.mpr hrec2
            rw [hnc] at hcontra
            exact Bool.noConfusion hcontra
          show (b₂.font.glyphs.filter (step3pred [] st2.2 side lbl)).map
              (fun g => g.name) = []
          rw [hfil]
          rfl
        cases hT1K : alLookup T (kernKeyStr side lbl) with
        | some gl =>
            have hglfil : gl.filter (fun n => !(isBracketGlyph n)) = gl := by
              rw [List.filter_eq_self]
              intro x hx
              rcases (table_sound b.font T side lbl gl hbg1 hrtl hnd hmdnd hflag hs
                  hT1K x hx).2 with ⟨g', hg', hge⟩ | ⟨q, hqmem, hqx⟩
              · rw [← hge, hbr g' hg']
                rfl
              · rw [hbrmd q hqmem x hqx]
                rfl
            have hmdlook : alLookup (b₂.font.userDataOrigGroups.getD [])
                (kernKeyStr side lbl) = some gl := by
              rw [hb2md, mdFold_lookup,
                mdFoldVal_of_lookup T (kernKeyStr side lbl) gl hT1nd hT1K hkernK, hglfil]
            have hmdmem2 : (kernKeyStr side lbl, gl) ∈ b₂.font.userDataOrigGroups.getD [] :=
              alLookup_mem _ _ _ hmdlook
            cases gl with
            | nil =>
                have hempty := step2_at_empty b₂.font _ _ st2 (kernKeyStr side lbl)
                  h2₂ hmd2nd hmdmem2
                rw [hempty, hadds2, combine_nil]
            | cons y ys =>
                have hfil2 : (y :: ys).filter (fun x => validOrig b₂.font side lbl x)
                    = y :: ys := by
                  rw [List.filter_eq_self]
                  intro x hx
                  rw [validOrig_congr b₂.font b.font hb2glyphs]
                  exact (table_sound b.font T side lbl (y :: ys) hbg1 hrtl hnd hmdnd
                    hflag hs hT1K x hx).1
                have hnon := step2_at_nonempty b₂.font _ _ st2 (kernKeyStr side lbl)
                  side lbl (y :: ys) h2₂ hmd2nd hmdmem2 (by simp)
                  (parse_kernKeyStr side hs lbl)
                rw [hB2] at hnon
                rw [hnon, hfil2, hadds2, combine_nil,
                  combine_ne_nil none (y :: ys) (by simp)]
                rfl
        | none =>
            have habs : ¬ (kernKeyStr side lbl) ∈ T.map Prod.fst :=
              (alLookup_eq_none_iff T _).mp hT1K
            have hmdval : mdFoldVal T (kernKeyStr side lbl) = none :=
              mdFoldVal_none_of_absent T _ habs
            have hmdlook : alLookup (b₂.font.userDataOrigGroups.getD [])
                (kernKeyStr side lbl)
                = alLookup (b.font.userDataOrigGroups.getD []) (kernKeyStr side lbl) := by
              rw [hb2md, mdFold_lookup, hmdval]
            cases hmdK : alLookup (b.font.userDataOrigGroups.getD [])
                (kernKeyStr side lbl) with
            | none =>
                have habs2 : ¬ (kernKeyStr side lbl) ∈
                    (b₂.font.userDataOrigGroups.getD []).map Prod.fst :=
                  (alLookup_eq_none_iff _ _).mp (hmdlook.trans hmdK)
                have hframe := step2_frame b₂.font _ _ st2 (kernKeyStr side lbl) h2₂ habs2
                rw [hframe, hB2, hadds2, combine_nil]
            | some L0 =>
                have hmdmem1 : (kernKeyStr side lbl, L0)
                    ∈ b.font.userDataOrigGroups.getD [] :=
                  alLookup_mem _ _ _ hmdK
                obtain ⟨st1p, rtl1, h2₁, hr₁, hT1e⟩ := buildGroups_ok_inv b.font T hbg1
                have hr10 := rtl_empty_ok b.font hrtl
                rw [hr10] at hr₁
                injection hr₁ with hre1
                have hT1K' := hT1K
                rw [hT1e, ← hre1,
                  step3_lookup_kern b.font.glyphs [] st1p.2 st1p.1 side lbl hs] at hT1K'
                obtain ⟨hsval, hadds1⟩ := combine_eq_none _ _ hT1K'
                cases L0 with
                | nil =>
                    have hempty1 := step2_at_empty b.font _ _ st1p (kernKeyStr side lbl)
                      h2₁ hmdnd hmdmem1
                    rw [hempty1] at hsval
                    exact Option.noConfusion hsval
                | cons z zs =>
                    have hnon1 := step2_at_nonempty b.font _ _ st1p (kernKeyStr side lbl)
                      side lbl (z :: zs) h2₁ hmdnd hmdmem1 (by simp)
                      (parse_kernKeyStr side hs lbl)
                    rw [hnon1] at hsval
                    obtain ⟨_, hfilnil⟩ := combine_eq_none _ _ hsval
                    have hmdmem2 : (kernKeyStr side lbl, z :: zs)
                        ∈ b₂.font.userDataOrigGroups.getD [] :=
                      alLookup_mem _ _ _ (hmdlook.trans hmdK)
                    have hnon2 := step2_at_nonempty b₂.font _ _ st2 (kernKeyStr side lbl)
                      side lbl (z :: zs) h2₂ hmd2nd hmdmem2 (by simp)
                      (parse_kernKeyStr side hs lbl)
                    have hfil2nil : (z :: zs).filter
                        (fun x => validOrig b₂.font side lbl x) = [] := by
                      rw [List.filter_eq_nil_iff]
                      intro x hx hv
                      rw [validOrig_congr b₂.font b.font hb2glyphs] at hv
                      have hmemf : x ∈ (z :: zs).filter
                          (fun x => validOrig b.font side lbl x) :=
                        List.mem_filter.mpr ⟨hx, hv⟩
                      rw [hfilnil] at hmemf
                      exact absurd hmemf (List.not_mem_nil x)
                    rw [hB2] at hnon2
                    rw [hnon2, hfil2nil, hadds2, combine_nil, combine_nil]

end GlyphsGroups

namespace GlyphsGroups

/-- Witness for C1 at a concrete font: two labelled glyphs and one recorded
empty group survive the design-build-design round trip with identical
labels, and the second build produces the identical table. -/
theorem c1_round_trip_witness :
    glyphLabels (⟨[⟨"g", none, some "A"⟩, ⟨"h", some "B", none⟩], [], [], [],
        some [("public.kern2.C", []), ("public.kern1.A", ["g"]), ("public.kern2.B", ["h"])],
        some []⟩ : GSFont)
      = glyphLabels ⟨[⟨"g", none, some "A"⟩, ⟨"h", some "B", none⟩], [], [], [],
          some [("public.kern2.C", [])], none⟩ ∧
    ∀ side lbl, (side = 1 ∨ side = 2) →
      alLookup [("public.kern2.C", ([] : List String)), ("public.kern1.A", ["g"]),
          ("public.kern2.B", ["h"])] (kernKeyStr side lbl)
        = alLookup [("public.kern2.C", ([] : List String)), ("public.kern1.A", ["g"]),
            ("public.kern2.B", ["h"])] (kernKeyStr side lbl) :=
  c1_round_trip
    ⟨⟨[⟨"g", none, some "A"⟩, ⟨"h", some "B", none⟩], [], [], [],
        some [("public.kern2.C", [])], none⟩, [⟨[], none, "R"⟩], true⟩
    ⟨⟨[⟨"g", none, some "A"⟩, ⟨"h", some "B", none⟩], [], [], [],
        some [("public.kern2.C", [])], none⟩,
      [⟨[("public.kern2.C", []), ("public.kern1.A", ["g"]), ("public.kern2.B", ["h"])],
        none, "R"⟩], true⟩
    ⟨⟨[⟨"g", none, some "A"⟩, ⟨"h", some "B", none⟩], [], [], [],
        some [("public.kern2.C", []), ("public.kern1.A", ["g"]), ("public.kern2.B", ["h"])],
        some []⟩,
      [⟨[("public.kern2.C", []), ("public.kern1.A", ["g"]), ("public.kern2.B", ["h"])],
        none, "R"⟩], true⟩
    [] ⟨[], none, "R"⟩ []
    [("public.kern2.C", []), ("public.kern1.A", ["g"]), ("public.kern2.B", ["h"])]
    [("public.kern2.C", []), ("public.kern1.A", ["g"]), ("public.kern2.B", ["h"])]
    rfl rfl rfl rfl (by decide) (by decide) (by decide) (by decide) (by decide)
    rfl rfl rfl rfl

end GlyphsGroups
